import Mathlib

/-!
Verification of the SQL column-lineage graph engine of the `grizzly`
repository (`grizzly_data_lineage/sql_graph`).

The Lean definitions below are a shallow embedding of the Python source:
pure data is translated to structures and lists, in-place mutation to
explicit state passing, Python exceptions to `Except` results, and the
few genuinely recursive traversals (the cycle-breaking DFS, the
topological-order relaxation queue, the height-budget shift loop) to
fueled recursion, returning `Option`/falling back only when fuel runs
out.  Each definition names the Python function or method it embeds.
-/

namespace Grizzly

/-- Exception taxonomy of `sql_graph/exceptions.py`, restricted to the
classes the embedded code can raise.  `parsingErr` stands for a bare
`ParsingError`, the rest mirror its subclasses. -/
inductive PErr where
  | parsingErr
  | unknownScenario
  | unsupportedType
  | spNotReady
  | columnLookup
  | tableLookup
deriving DecidableEq, Repr

/-! ## C10: `ColumnContainer.__getitem__`
(`sql_graph/parsing/columns/column_container.py`, lines 72-97)

The container stores ordinary columns in `_column_dict` (keyed by name)
plus `_column_order_list` (names in order), and a separate star column
with an `initialized` flag (`star_column.py`).  Columns are identified
here by numeric ids. -/

/-- A key accepted by `ColumnContainer.__getitem__`: a column name, an
integer position, or `None`.  (Any other Python type raises
`UnsupportedTypeError`, which the method does not catch; that case is
outside the claim and has no counterpart in a typed embedding.) -/
inductive CKey where
  | str : String → CKey
  | int : Int → CKey
  | noneKey : CKey
deriving DecidableEq, Repr

/-- State of a `ColumnContainer` as far as `__getitem__` is concerned:
the name-keyed dict (association list), the order list, and the star
column (its id and its `initialized` flag). -/
structure CContainer where
  columnDict : List (String × Nat)
  columnOrderList : List String
  starInit : Bool
  starId : Nat
deriving Repr

/-- Python dict lookup `d[k]` on an association list (`None` = `KeyError`). -/
def lookupAssoc (d : List (String × Nat)) (k : String) : Option Nat :=
  (d.find? (fun p => p.1 = k)).map (fun p => p.2)

/-- Python list indexing `l[k]`: negative indices count from the end,
out-of-range raises `IndexError` (`none` here). -/
def pyIndex (n : Nat) (k : Int) : Option Nat :=
  let j : Int := if k < 0 then k + (n : Int) else k
  if 0 ≤ j ∧ j < (n : Int) then some j.toNat else none

/-- What a successful `ColumnContainer.__getitem__` returns: a stored
column or the container's star column. -/
inductive CLookup where
  | col : Nat → CLookup
  | star : Nat → CLookup
deriving DecidableEq, Repr

/-- The key-resolution part of `__getitem__`: name via `_column_dict`,
position via `_column_order_list` then `_column_dict`, `None` resolves
to nothing.  A `none` result corresponds to the caught
`KeyError`/`IndexError`/`ColumnLookupError`. -/
def resolveKey (c : CContainer) (key : CKey) : Option Nat :=
  match key with
  | CKey.str s => lookupAssoc c.columnDict s
  | CKey.int k =>
      (pyIndex c.columnOrderList.length k).bind (fun i =>
        (c.columnOrderList.get? i).bind (fun nm => lookupAssoc c.columnDict nm))
  | CKey.noneKey => none

/-- `ColumnContainer.__getitem__`: try to resolve the key; on failure
return the star column if it is initialized, otherwise raise
`ColumnLookupError`. -/
def getItem (c : CContainer) (key : CKey) : Except PErr CLookup :=
  match resolveKey c key with
  | some cid => Except.ok (CLookup.col cid)
  | none =>
      if c.starInit then Except.ok (CLookup.star c.starId)
      else Except.error PErr.columnLookup

/-! ## C9: `GridItem.serializing_params`
(`sql_graph/parsing/primitives/grid_item.py`, lines 193-234, and
`serializing_params.py`) -/

/-- `Coordinates` with its `initialized` flag (`coordinates.py`). -/
structure Coords where
  x : Int
  y : Int
  initialized : Bool
deriving DecidableEq, Repr

/-- The fields of `SerializingParams` that `GridItem` itself computes,
plus the `ready` flag guarding all access. -/
structure SParams where
  ready : Bool
  idStr : Option String
  label : Option String
  parent : Option String
  width : Int
  height : Int
  coordinates : Coords
  data : List (String × String)
deriving Repr

/-- `SerializingParams.__init__`: everything unset, `ready = False`. -/
def initialSParams : SParams :=
  { ready := false, idStr := none, label := none, parent := none,
    width := 0, height := 0, coordinates := ⟨0, 0, false⟩, data := [] }

/-- A `GridItem` for the purposes of the serializing-params pass: its
stored `_serializing_params` plus the abstract-method results and class
constants that `_calculate_serializing_params` reads.  `wrapFn`
stands for `misc_utils.wrap_text` (a thin wrapper over Python's
`textwrap`, an external collaborator), applied to (text, available
width), returning the wrapped text and its pixel height. -/
structure GItem where
  sp : SParams
  serializingId : String
  labelText : String
  widthConst : Int
  verticalMargin : Int
  maxWidthPenalty : Int
  wrapFn : String → Int → String × Int

/-- `GridItem._wrap_label`: wrap the label only once width is known
(nonzero); returns the label height (the `description` branch applies
only to items that carry a description in `data`, which the base pass
modeled here never populates). -/
def wrapLabel (it : GItem) (sp : SParams) : SParams × Int :=
  if sp.width ≠ 0 then
    match sp.label with
    | some l =>
        let w := it.wrapFn l (sp.width - it.maxWidthPenalty)
        ({ sp with label := some w.1 }, w.2)
    | none => (sp, 0)
  else (sp, 0)

/-- `GridItem._calculate_serializing_params`: compute id, label, width,
wrapped-label height, total height, and finally set `ready := True`. -/
def calcSerializingParams (it : GItem) : GItem :=
  let sp1 := { it.sp with idStr := some it.serializingId,
                          label := some it.labelText,
                          width := it.widthConst }
  let wl := wrapLabel it sp1
  let sp2 := { wl.1 with height := 2 * it.verticalMargin + wl.2,
                         ready := true }
  { it with sp := sp2 }

/-- `GridItem.calculate_serializing_params` (public entry): optionally
record the parent, then run the protected calculation. -/
def calculateSerializingParams (it : GItem) (parent : Option String) : GItem :=
  let it1 :=
    match parent with
    | some p => { it with sp := { it.sp with parent := some p } }
    | none => it
  calcSerializingParams it1

/-- The `serializing_params` property: return the params only if
`ready`, otherwise raise `SerializingParamsNotReady`. -/
def serializingParams (it : GItem) : Except PErr SParams :=
  if it.sp.ready then Except.ok it.sp else Except.error PErr.spNotReady

/-! ## C2: `lookup_source` and its helpers
(`sql_graph/parsing/tables/source_lookup.py`) -/

/-- What `lookup_source` observes about one source table of the table
being resolved: its name, its column names in order, whether it is an
`ExternalTable`, and whether its star column is initialized (the last
field is read only by the claim-side definition below, never by the
embedded code, which tests `isinstance(t, ExternalTable)`). -/
structure SrcTable where
  name : String
  columns : List String
  isExt : Bool
  starInit : Bool
deriving DecidableEq, Repr

/-- `lookup_source_table_by_column`: the first source table having a
column named exactly `columnName`; `ColumnLookupError` otherwise. -/
def lookupSourceTableByColumn (sources : List SrcTable) (columnName : String) :
    Except PErr String :=
  match sources.find? (fun t => t.columns.contains columnName) with
  | some t => Except.ok t.name
  | none => Except.error PErr.columnLookup

/-- `lookup_external_source_table`: the unique `ExternalTable` source;
`TableLookupError` when there are several or none. -/
def lookupExternalSourceTable (sources : List SrcTable) : Except PErr String :=
  match sources.filter (fun t => t.isExt) with
  | [t] => Except.ok t.name
  | _ => Except.error PErr.tableLookup

/-- `lookup_single_source_table`: the unique source table;
`TableLookupError` when the table does not have exactly one source. -/
def lookupSingleSourceTable (sources : List SrcTable) : Except PErr String :=
  match sources with
  | [t] => Except.ok t.name
  | _ => Except.error PErr.tableLookup

/-- Lexicographic comparison of character lists (Python string `<`,
also the order Lean's `String.lt` denotes). -/
def charListLt : List Char → List Char → Bool
  | [], [] => false
  | [], _ :: _ => true
  | _ :: _, [] => false
  | a :: as, b :: bs =>
      if a < b then true else if b < a then false else charListLt as bs

/-- String comparison by code points. -/
def strLt (a b : String) : Bool :=
  charListLt a.toList b.toList

/-- Python's `"." in s`. -/
def containsDot (s : String) : Bool :=
  s.toList.contains '.'

/-- Split a character list on every `'.'`. -/
def splitDotAux (cur : List Char) : List Char → List (List Char)
  | [] => [cur.reverse]
  | c :: rest =>
      if c = '.' then cur.reverse :: splitDotAux [] rest
      else splitDotAux (c :: cur) rest

/-- Python `s.split(".")`. -/
def splitDot (s : String) : List String :=
  (splitDotAux [] s.toList).map (fun l => String.mk l)

/-- Rejoin string parts with dots. -/
def joinDot : List String → String
  | [] => ""
  | [x] => x
  | x :: xs => x ++ "." ++ joinDot xs

/-- Python `s.rsplit(".", 1)` for a string known to contain a dot:
split off the part after the last dot. -/
def rsplitDot (s : String) : String × String :=
  let parts := splitDot s
  (joinDot parts.dropLast, parts.getLastD "")

/-- `lookup_source`: qualified references are split on the last dot;
bare references are resolved by column name, then by the unique
external source (its `TableLookupError` is caught), then by the unique
source (whose `TableLookupError` propagates). -/
def lookupSource (sources : List SrcTable) (source : String) :
    Except PErr (String × String) :=
  if containsDot source then
    Except.ok (rsplitDot source)
  else
    match lookupSourceTableByColumn sources source with
    | Except.ok t => Except.ok (t, source)
    | Except.error _ =>
        match lookupExternalSourceTable sources with
        | Except.ok t => Except.ok (t, source)
        | Except.error _ =>
            (lookupSingleSourceTable sources).map (fun t => (t, source))

/-- Modelled from the claim's words (C2), for comparison with
`lookupSource`: on a bare reference, first a source table with a column
of that exact name, otherwise the unique source table exposing an
initialized `StarColumn`, an ambiguity error whenever more than one
such table exists. -/
def lookupSourceClaimed (sources : List SrcTable) (source : String) :
    Except PErr (String × String) :=
  if containsDot source then
    Except.ok (rsplitDot source)
  else
    match sources.find? (fun t => t.columns.contains source) with
    | some t => Except.ok (t.name, source)
    | none =>
        match sources.filter (fun t => t.starInit) with
        | [t] => Except.ok (t.name, source)
        | _ => Except.error PErr.tableLookup

/-! ## C4: `Namespace._add_table` and `GraphNamespace._add_table`
(`sql_graph/parsing/utils/namespace.py`, lines 48-54 and 199-215) -/

/-- The table variants (`sql_graph/parsing/tables`). -/
inductive TKind where
  | selectT
  | externalT
  | unnestT
  | breakerT
deriving DecidableEq, Repr

/-- A table as the namespace insertion logic sees it: its (already
validated) name and its variant. -/
structure NTable where
  name : String
  kind : TKind
deriving DecidableEq, Repr

/-- A namespace's `_tables` dict: name-keyed association list. -/
structure GNamespace where
  tables : List (String × NTable)
deriving DecidableEq, Repr

/-- Dict lookup in a namespace. -/
def nsLookup (ns : GNamespace) (name : String) : Option NTable :=
  ((ns.tables.find? (fun p => p.1 = name)).map (fun p => p.2))

/-- Replace the entry under an existing key (`self._tables[name] = table`). -/
def nsReplace (ns : GNamespace) (name : String) (t : NTable) : GNamespace :=
  ⟨ns.tables.map (fun p => if p.1 = name then (p.1, t) else p)⟩

/-- `Namespace._add_table` (the abstract base): a name collision raises
`ParsingError` and leaves `_tables` unchanged, otherwise the table is
stored under its name. -/
def baseAddTable (ns : GNamespace) (t : NTable) : GNamespace × Except PErr Unit :=
  match nsLookup ns t.name with
  | some _ => (ns, Except.error PErr.parsingErr)
  | none => (⟨ns.tables ++ [(t.name, t)]⟩, Except.ok ())

/-- `GraphNamespace._add_table`: try the base insertion; on a
`ParsingError`, if the existing entry is an `ExternalTable`, overwrite
the namespace entry with the new table and then call the displaced
placeholder's `recalculate()` (returned here as the second component,
recording which table the recalculation was triggered on before the
placeholder is discarded); any other collision re-raises the error. -/
def graphAddTable (ns : GNamespace) (t : NTable) :
    GNamespace × Except PErr (Option NTable) :=
  match baseAddTable ns t with
  | (ns', Except.ok _) => (ns', Except.ok none)
  | (ns', Except.error e) =>
      match nsLookup ns' t.name with
      | some existing =>
          if existing.kind = TKind.externalT then
            (nsReplace ns' t.name t, Except.ok (some existing))
          else
            (ns', Except.error e)
      | none => (ns', Except.error e)

/-! ## C7: `TokenizedQuery._process_other_step` / `_process_steps`
(`sql_graph/parsing/utils/tokenized_query.py`, lines 188-221) -/

/-- A tokenized JSON value as returned by the external SQL grammar
parser (`mo_sql_parsing`): nested dicts, lists and scalars. -/
inductive Tok where
  | str : String → Tok
  | num : Int → Tok
  | boolT : Bool → Tok
  | nullT : Tok
  | obj : List (String × Tok) → Tok
  | arr : List Tok → Tok

/-- Dict lookup inside a tokenized JSON object. -/
def tokLookup (d : List (String × Tok)) (k : String) : Option Tok :=
  ((d.find? (fun p => p.1 = k)).map (fun p => p.2))

/-- `TokenizedQuery.TokenizedStepInfo`: one processed statement step. -/
structure StepInfo where
  tableName : String
  temporary : Bool
  query : Tok

/-- `TokenizedQuery._process_other_step`: a non-final step is accepted
only when its token tree is a single-key `create table` object; then
`name`, `query` and the optional `temporary` flag are read from the
payload (a missing `name`/`query` key or a non-string name is a raw
`KeyError`-style failure, returned as `Except.error`; it never happens
on trees produced by the grammar parser).  Any other shape is logged
and skipped (`Except.ok none`). -/
def processOtherStep (step : List (String × Tok)) :
    Except PErr (Option StepInfo) :=
  if step.length = 1 ∧ (tokLookup step "create table").isSome then
    match tokLookup step "create table" with
    | some (Tok.obj payload) =>
        match tokLookup payload "name", tokLookup payload "query" with
        | some (Tok.str nm), some q =>
            let temp := match tokLookup payload "temporary" with
                        | some (Tok.boolT b) => b
                        | _ => false
            Except.ok (some ⟨nm, temp, q⟩)
        | _, _ => Except.error PErr.parsingErr
    | _ => Except.error PErr.parsingErr
  else
    Except.ok none

/-- `TokenizedQuery._process_steps`: every statement but the last goes
through `_process_other_step` (skipped shapes contribute nothing); the
final statement is always recorded under the query's declared target
table, not temporary, whatever its shape. -/
def processSteps (targetTable : String) (steps : List (List (String × Tok))) :
    Except PErr (List StepInfo) :=
  match steps.getLast? with
  | none => Except.ok []
  | some finalStep => do
      let infos ← steps.dropLast.foldlM (fun acc st => do
        match ← processOtherStep st with
        | some info => pure (acc ++ [info])
        | none => pure acc) []
      pure (infos ++ [⟨targetTable, false, Tok.obj finalStep⟩])

/-! ## C5: `GridItem` source/reference management
(`sql_graph/parsing/primitives/grid_item.py`, lines 71-117)

Items of every variant share this logic.  Items are identified by
numeric ids; the state carries every item's `_sources` and
`_references` lists. -/

/-- The `_sources`/`_references` lists of all items. -/
structure RefState where
  sources : Nat → List Nat
  references : Nat → List Nat

/-- Pointwise update of one item's list. -/
def updList (f : Nat → List Nat) (k : Nat) (v : List Nat) : Nat → List Nat :=
  fun x => if x = k then v else f x

/-- `GridItem.register_reference` on item `b`: append `a` to `b`'s
reference list unless already present. -/
def registerReference (st : RefState) (b a : Nat) : RefState :=
  if a ∈ st.references b then st
  else { st with references := updList st.references b (st.references b ++ [a]) }

/-- `GridItem.add_source` on item `a`: append `b` to `a`'s source list
unless already present, and register the back-reference on `b`. -/
def addSource (st : RefState) (a b : Nat) : RefState :=
  if b ∈ st.sources a then st
  else
    let st1 := { st with sources := updList st.sources a (st.sources a ++ [b]) }
    registerReference st1 b a

/-- `GridItem.drop_reference` on item `b`: remove `a` from `b`'s
reference list; `ParsingError` (state untouched) when absent. -/
def dropReference (st : RefState) (b a : Nat) : RefState × Option PErr :=
  if a ∈ st.references b then
    ({ st with references := updList st.references b ((st.references b).erase a) },
     none)
  else (st, some PErr.parsingErr)

/-- `GridItem.remove_source` on item `a`: removing an absent source is
a `ParsingError` with no mutation (the `ValueError` branch); otherwise
the source is removed first and only then is the back-reference
dropped, so a `ParsingError` escaping from `drop_reference` leaves the
state with the source already gone. -/
def removeSource (st : RefState) (a b : Nat) : RefState × Option PErr :=
  if b ∈ st.sources a then
    let st1 := { st with sources := updList st.sources a ((st.sources a).erase b) }
    dropReference st1 b a
  else (st, some PErr.parsingErr)

/-- Well-formedness of the reference state: no duplicates in any list,
and sources/references are mutual inverses. -/
def WfRefState (st : RefState) : Prop :=
  (∀ a, (st.sources a).Nodup) ∧ (∀ b, (st.references b).Nodup) ∧
    (∀ a b, b ∈ st.sources a ↔ a ∈ st.references b)

/-! ## C6: `ColumnContainer.parse_union`
(`sql_graph/parsing/columns/column_container.py`, lines 224-250) -/

/-- A union branch as `parse_union` sees it after the branch's virtual
table has been created: its (anonymous) table name, the names of its
ordinary columns in order, and whether its star column is initialized.
The same view serves for any other source table of the union table. -/
structure BranchTable where
  name : String
  columns : List String
  starInit : Bool
deriving DecidableEq, Repr

/-- The names contributed by `{c.name for c in virtual_table.columns}`:
iterating a `ColumnContainer` yields the star column first when it is
initialized (named `"*"`), then the ordinary columns. -/
def branchVisibleNames (b : BranchTable) : List String :=
  (if b.starInit then ["*"] else []) ++ b.columns

/-- Ascending insertion into a sorted list of strings (for Python's
`sorted`). -/
def strInsert (s : String) : List String → List String
  | [] => [s]
  | t :: ts => if strLt s t then s :: t :: ts else t :: strInsert s ts

/-- Python's `sorted` on a collection of strings. -/
def strSort (l : List String) : List String :=
  l.foldr strInsert []

/-- A source recorded on one union output column: the same-named column
of a branch, or a branch's star column (the fallback of
`ColumnContainer.__getitem__`). -/
inductive UColSource where
  | named : String → String → UColSource
  | starOf : String → UColSource
deriving DecidableEq, Repr

/-- `source_table.columns[column_name]` inside `parse_union`: the
`__getitem__` lookup against a branch, with the star fallback; the
error is the caught `ColumnLookupError`. -/
def unionResolve (b : BranchTable) (nm : String) : Except PErr UColSource :=
  if b.columns.contains nm then Except.ok (UColSource.named b.name nm)
  else if b.starInit then Except.ok (UColSource.starOf b.name)
  else Except.error PErr.columnLookup

/-- Set insertion (Python `set.union` element by element). -/
def setInsert (acc : List String) (s : String) : List String :=
  if s ∈ acc then acc else acc ++ [s]

/-- The `column_names` set accumulated over the branches. -/
def collectNames (branches : List BranchTable) : List String :=
  branches.foldl (fun acc b => (branchVisibleNames b).foldl setInsert acc) []

/-- The `column_names` set of `parse_union`, sorted: every name
observed across the branches (`sorted(column_names)`). -/
def unionNames (branches : List BranchTable) : List String :=
  strSort (collectNames branches)

/-- The `for source_table in self.table.get_sources()` loop building
one output column: resolve the name against every source in order,
raising at the first failure as Python does. -/
def resolveAll (sources : List BranchTable) (nm : String) :
    Except PErr (List UColSource) :=
  match sources with
  | [] => Except.ok []
  | b :: rest =>
      match unionResolve b nm with
      | Except.ok c => (resolveAll rest nm).map (fun cs => c :: cs)
      | Except.error e => Except.error e

/-- `ColumnContainer.parse_union`: first every branch's virtual table
is created and added as a source of the union table (after any
pre-existing sources); then, for each name in the sorted union of the
names observed across branches, one output column is built, sourced
from `columns[name]` of every source table; a `ColumnLookupError`
there is re-raised as `UnknownScenario` (column count mismatch). -/
def parseUnion (initialSources : List BranchTable) (branches : List BranchTable) :
    Except PErr (List BranchTable × List (String × List UColSource)) :=
  let sources := initialSources ++ branches
  let build := (unionNames branches).foldlM
    (fun (acc : List (String × List UColSource)) nm =>
      match resolveAll sources nm with
      | Except.ok cs => Except.ok (acc ++ [(nm, cs)])
      | Except.error _ => Except.error PErr.unknownScenario)
    []
  build.map (fun cols => (sources, cols))

/-- Modelled from the claim's words (C6), for comparison with
`parseUnion`: exactly one output column per distinct column name
observed across all branches, each receiving as a source the
same-named column of every branch, and a branch in which the named
column cannot be found causing a parse error. -/
def parseUnionClaimed (initialSources : List BranchTable)
    (branches : List BranchTable) :
    Except PErr (List BranchTable × List (String × List UColSource)) :=
  let sources := initialSources ++ branches
  let names := strSort (branches.foldl (fun acc b => b.columns.foldl setInsert acc) [])
  let build := names.foldlM
    (fun (acc : List (String × List UColSource)) nm =>
      match sources.foldrM (fun b cs =>
          if b.columns.contains nm then
            Except.ok (UColSource.named b.name nm :: cs)
          else (Except.error PErr.columnLookup :
                  Except PErr (List UColSource))) [] with
      | Except.ok cs => Except.ok (acc ++ [(nm, cs)])
      | Except.error _ => Except.error PErr.unknownScenario)
    []
  build.map (fun cols => (sources, cols))

/-! ## C3: `ColumnContainer.add_column` / `ColumnContainer.redo_copy`
(`sql_graph/parsing/columns/column_container.py`, lines 103-137 and
180-198)

`_columns_by_source` is a Python `defaultdict(set)`; `add_column`
indexes it with a Column *object* while `redo_copy` indexes it with a
table-name *string*, so the embedding keys it by a sum of the two. -/

/-- A key of the `_columns_by_source` dict: a `Column` object (by id)
or a plain string. -/
inductive PKey where
  | colObj : Nat → PKey
  | nameStr : String → PKey
deriving DecidableEq, Repr

/-- A column as `add_column` sees it: its object identity, its (maybe
`None`) name, and its source list (ids of source columns). -/
structure CCol where
  colId : Nat
  name : Option String
  sources : List Nat
deriving DecidableEq, Repr

/-- The mutable parts of a `ColumnContainer` used by `add_column` and
`redo_copy`: `_column_dict`, `_column_order_list`, `_columns_by_source`
and the star column's source list. -/
structure CC3 where
  columnDict : List (String × CCol)
  columnOrderList : List String
  columnsBySource : List (PKey × List String)
  starSources : List Nat
deriving DecidableEq, Repr

/-- Read of `_columns_by_source[k]`: a missing key yields the empty set
(the `defaultdict` inserts an empty set, which is observationally the
same for the embedded code). -/
def cbsGet (m : List (PKey × List String)) (k : PKey) : List String :=
  match m.find? (fun p => p.1 = k) with
  | some p => p.2
  | none => []

/-- `_columns_by_source[k].add(nm)` (set insertion). -/
def cbsAdd (m : List (PKey × List String)) (k : PKey) (nm : String) :
    List (PKey × List String) :=
  match m.find? (fun p => p.1 = k) with
  | some _ =>
      m.map (fun p =>
        if p.1 = k then (p.1, if nm ∈ p.2 then p.2 else p.2 ++ [nm]) else p)
  | none => m ++ [(k, [nm])]

/-- The `cnt`-th candidate of `_validate_column_name`: `name_{cnt}` for
a named column, `f{cnt}_` for an unnamed one. -/
def nameCandidate (base : Option String) (cnt : Nat) : String :=
  match base with
  | some nm => nm ++ "_" ++ toString cnt
  | none => "f" ++ toString cnt ++ "_"

/-- The `while new_name in self._column_dict` loop of
`_validate_column_name`, fueled: with fuel `taken.length + 1` one of
the candidates is necessarily free, so the fuel never runs out on the
loop's actual domain. -/
def validateNameAux (taken : List String) (base : Option String) :
    Nat → Nat → String
  | 0, cnt => nameCandidate base cnt
  | fuel + 1, cnt =>
      let cand := nameCandidate base cnt
      if taken.contains cand then validateNameAux taken base fuel (cnt + 1)
      else cand

/-- `ColumnContainer._validate_column_name`: keep a free name, suffix a
fresh counter value on collision (`name_1`, `name_2`, ...), and name an
unnamed column `f0_`, `f1_`, .... -/
def validateColumnName (dict : List (String × CCol)) (base : Option String) :
    String :=
  let taken := dict.map (fun p => p.1)
  let first := match base with
               | some s => s
               | none => nameCandidate none 0
  if taken.contains first then validateNameAux taken base (taken.length + 1) 1
  else first

/-- `ColumnContainer.add_column`: validate (possibly rename) the
column, store it in `_column_dict` and `_column_order_list`, and, when
the column has exactly one source, record its name in
`_columns_by_source` under the source *Column object* key. -/
def addColumn (cc : CC3) (col : CCol) : CC3 :=
  let nm := validateColumnName cc.columnDict col.name
  let col' := { col with name := some nm }
  let cc1 := { cc with columnDict := cc.columnDict ++ [(nm, col')],
                       columnOrderList := cc.columnOrderList ++ [nm] }
  match col.sources with
  | [s] => { cc1 with columnsBySource := cbsAdd cc1.columnsBySource (PKey.colObj s) nm }
  | _ => cc1

/-- The source table as `redo_copy` sees it after re-lookup by name:
its name, its star column (id and `initialized` flag), and its
ordinary columns as (object id, name) pairs. -/
structure RSourceTable where
  name : String
  starId : Nat
  starInit : Bool
  columns : List (Nat × String)
deriving DecidableEq, Repr

/-- Iteration order of `for column in new_source.columns`: the star
column first when initialized, then the ordinary columns. -/
inductive RChild where
  | star : Nat → RChild
  | col : Nat → String → RChild
deriving DecidableEq, Repr

/-- The children of the re-looked-up source's container. -/
def rChildren (t : RSourceTable) : List RChild :=
  (if t.starInit then [RChild.star t.starId] else []) ++
    t.columns.map (fun c => RChild.col c.1 c.2)

/-- `ColumnContainer.redo_copy`: drop the old source's star column from
the star sources (a `ParsingError` when absent), then walk the
re-looked-up source's columns: star columns are re-added as star
sources; an ordinary column is copied (via `column.copy`, whose parse
re-adds the original column as the copy's only source) whenever its
name is *not* in `_columns_by_source[new_source.name]` — a lookup
under the table-name *string* key, which `add_column` never populates.
Returns whether any column was added. -/
def redoCopy (cc : CC3) (oldStarId : Nat) (newSource : RSourceTable) :
    Except PErr (CC3 × Bool) :=
  if oldStarId ∈ cc.starSources then
    let cc0 : CC3 := { cc with starSources := cc.starSources.erase oldStarId }
    Except.ok ((rChildren newSource).foldl
      (fun (st : CC3 × Bool) child =>
        match child with
        | RChild.star sid =>
            ({ st.1 with starSources :=
                if sid ∈ st.1.starSources then st.1.starSources
                else st.1.starSources ++ [sid] }, st.2)
        | RChild.col cid cname =>
            if cname ∈ cbsGet st.1.columnsBySource (PKey.nameStr newSource.name)
            then st
            else (addColumn st.1 ⟨cid, some cname, [cid]⟩, true))
      (cc0, false))
  else Except.error PErr.parsingErr

/-! ## C8: `TopologicalLayout`
(`sql_graph/serializing/table_layout/topological_layout.py`)

Tables are identified by numeric ids; `srcs`/`refs` give each table's
`get_all_sources()` / `get_all_table_references()` as id lists, `nameOf`
its name, `heightOf`/`widthOf` its serializing height and width.  The
relaxation queue and the height-budget shift loop are general
recursion in Python and take fuel here. -/

/-- Pointwise update of a `Nat`-indexed map. -/
def updF {α : Type} (f : Nat → α) (k : Nat) (v : α) : Nat → α :=
  fun x => if x = k then v else f x

/-- Pointwise update of an `Int`-indexed map. -/
def updZ {α : Type} (f : Int → α) (k : Int) (v : α) : Int → α :=
  fun x => if x = k then v else f x

/-- `MAX_PIXELS_PER_GRID_COLUMN` (`settings.py`). -/
def MAX_PIXELS_PER_GRID_COLUMN : Nat := 5000

/-- `TABLE_Y_SPACING` (`settings.py`). -/
def TABLE_Y_SPACING : Nat := 100

/-- The inner `for source in table.get_all_sources()` loop of
`_table_topological_sort`: pull each source's order below the current
table's, reading the current values as Python does. -/
def relaxFold (t : Nat) : List Nat → (Nat → Int) → (Nat → Int)
  | [], ord => ord
  | s :: rest, ord => relaxFold t rest (updF ord s (min (ord s) (ord t - 1)))

/-- The `while queue` loop of `_table_topological_sort`: pop a table,
relax all its source edges, append the sources to the queue.  The loop
terminates exactly on graphs whose source relation is acyclic; the
fuel caps the number of pops. -/
def topoSortAux (srcs : Nat → List Nat) :
    Nat → List Nat → (Nat → Int) → Option (Nat → Int)
  | _, [], ord => some ord
  | 0, _ :: _, _ => none
  | fuel + 1, t :: q, ord =>
      topoSortAux srcs fuel (q ++ srcs t) (relaxFold t (srcs t) ord)

/-- `TopologicalLayout._table_topological_sort`: run the relaxation
queue seeded with every table, orders all zero
(`defaultdict(lambda: 0)`). -/
def tableTopologicalSort (srcs : Nat → List Nat) (tables : List Nat)
    (fuel : Nat) : Option (Nat → Int) :=
  topoSortAux srcs fuel tables (fun _ => 0)

/-- The sort key comparison of `_calculate_table_grid_slot_positions`:
ascending in `(-order, name)`. -/
def keyLt (ord : Nat → Int) (nameOf : Nat → String) (a b : Nat) : Bool :=
  decide (-ord a < -ord b) ||
    (decide (-ord a = -ord b) && strLt (nameOf a) (nameOf b))

/-- Stable ascending insertion for Python's `sorted`. -/
def sortInsert (lt : Nat → Nat → Bool) (x : Nat) : List Nat → List Nat
  | [] => [x]
  | y :: ys => if lt x y then x :: y :: ys else y :: sortInsert lt x ys

/-- Python's stable `sorted` under a strict comparison. -/
def sortTables (lt : Nat → Nat → Bool) (l : List Nat) : List Nat :=
  l.foldr (sortInsert lt) []

/-- The mutable state of `_calculate_table_grid_slot_positions`:
`_grid_pos` (split into x, y and the `initialized` flag),
`_vertical_cnt`, `_grid_col_heights` and `_max_width`, all
defaultdicts over zero. -/
structure PlaceState where
  gridX : Nat → Int
  gridY : Nat → Int
  placedInit : Nat → Bool
  verticalCnt : Int → Nat
  colHeights : Int → Nat
  maxWidth : Int → Nat

/-- The all-zero initial placement state. -/
def initialPlaceState : PlaceState :=
  { gridX := fun _ => 0, gridY := fun _ => 0, placedInit := fun _ => false,
    verticalCnt := fun _ => 0, colHeights := fun _ => 0, maxWidth := fun _ => 0 }

/-- The `for reference in table.get_all_table_references()` loop:
move the table's x below every reference's current x. -/
def refsFold (t : Nat) : List Nat → (Nat → Int) → (Nat → Int)
  | [], gx => gx
  | r :: rest, gx => refsFold t rest (updF gx t (min (gx r - 1) (gx t)))

/-- The height-budget `while` loop: keep shifting one column left
while the current column is non-empty and adding the table would
exceed `MAX_PIXELS_PER_GRID_COLUMN`.  The loop always reaches an empty
column after at most (number of occupied columns) steps, so fuel
`tables.length + 1` reproduces the Python loop. -/
def shiftLeft (vc : Int → Nat) (ch : Int → Nat) (h : Nat) :
    Nat → Int → Int
  | 0, x => x
  | fuel + 1, x =>
      if vc x ≠ 0 ∧ ch x + h > MAX_PIXELS_PER_GRID_COLUMN then
        shiftLeft vc ch h fuel (x - 1)
      else x

/-- Placement of one table inside
`_calculate_table_grid_slot_positions`: reference-min pass, budget
shift, then record slot y, the occupancy counters, the column height
and the column max width. -/
def placeTable (refs : Nat → List Nat) (heightOf widthOf : Nat → Nat)
    (fuel : Nat) (st : PlaceState) (t : Nat) : PlaceState :=
  let gx1 := refsFold t (refs t) st.gridX
  let h := heightOf t
  let x := shiftLeft st.verticalCnt st.colHeights h fuel (gx1 t)
  let y := st.verticalCnt x
  { gridX := updF gx1 t x,
    gridY := updF st.gridY t (y : Int),
    placedInit := updF st.placedInit t true,
    verticalCnt := updZ st.verticalCnt x (y + 1),
    colHeights := updZ st.colHeights x (st.colHeights x + h + TABLE_Y_SPACING),
    maxWidth := updZ st.maxWidth x (max (st.maxWidth x) (widthOf t)) }

/-- `TopologicalLayout._calculate_table_grid_slot_positions`: place the
tables in reverse topological order (ascending `(-order, name)`). -/
def calculateSlotPositions (ord : Nat → Int) (nameOf : Nat → String)
    (refs : Nat → List Nat) (heightOf widthOf : Nat → Nat)
    (tables : List Nat) (fuel : Nat) : PlaceState :=
  (sortTables (keyLt ord nameOf) tables).foldl
    (placeTable refs heightOf widthOf fuel) initialPlaceState

/-- The first two phases of `TopologicalLayout.__init__`: topological
sort then slot placement (`none` when the sort's fuel runs out, which
happens only on cyclic inputs given enough fuel). -/
def topologicalLayoutSlots (srcs refs : Nat → List Nat)
    (nameOf : Nat → String) (heightOf widthOf : Nat → Nat)
    (tables : List Nat) (sortFuel shiftFuel : Nat) : Option PlaceState :=
  match tableTopologicalSort srcs tables sortFuel with
  | none => none
  | some ord =>
      some (calculateSlotPositions ord nameOf refs heightOf widthOf tables
        shiftFuel)

/-! ## C1: `Graph.break_cycles`
(`sql_graph/parsing/graph.py`, lines 113-150, and
`cycle_breaker_table.py`)

The model works over the "all sources" relation of the claim: tables
are ids, `src` maps each table to the tables of its flattened source
items.  Original tables are `0 .. n-1`; cycle-breaker tables are
created at `fresh, fresh+1, ...` and, per the `get_all_sources`
override of `CycleBreakerTable`, never have sources.  Creating a
breaker for a yielded `(start, target)` pair removes every
`start`-owned source item of `target` and of its columns
(`remove_source` + `_relink_references`) and adds the breaker in their
place, so its net effect on the relation is: drop `start` from
`src target`, append the fresh breaker. -/

/-- The table graph state: `n` original tables, next fresh breaker id,
and the "all sources" relation. -/
structure GState where
  n : Nat
  fresh : Nat
  src : Nat → List Nat

/-- `GraphNamespace.create_cycle_breaker_table` for a cycle pair
`(start, tgt)`, at the all-sources level. -/
def breakEdge (g : GState) (start tgt : Nat) : GState :=
  { n := g.n,
    fresh := g.fresh + 1,
    src := updF g.src tgt
      (((g.src tgt).filter (fun b => b ≠ start)) ++ [g.fresh]) }

/-- One table's `get_all_sources()` snapshot (a Python set: each table
at most once). -/
def snapshotSrc (g : GState) (u : Nat) : List Nat :=
  (g.src u).dedup

/-- The DFS of `_find_cycles_relative_to_table`, fused with the
`break_cycles` loop body that consumes each yielded pair immediately:
the current node `u` iterates over the snapshot of its sources taken
at expansion; a source equal to `start` yields `(start, u)` and
creates the breaker on the spot; an unvisited source is expanded
recursively, threading the mutated graph and the shared visited set.
Fuel decreases at every step; `none` means it ran out. -/
def dfsRun (start : Nat) :
    Nat → Nat → List Nat → GState → List Nat → Option (GState × List Nat)
  | 0, _, _, _, _ => none
  | fuel + 1, u, srcsList, g, visited =>
      match srcsList with
      | [] => some (g, visited)
      | s :: rest =>
          let g1 := if s = start then breakEdge g start u else g
          if s ∈ visited then dfsRun start fuel u rest g1 visited
          else
            match dfsRun start fuel s (snapshotSrc g1 s) g1 (visited.insert s) with
            | none => none
            | some (g2, v2) => dfsRun start fuel u rest g2 v2

/-- One outer iteration of `break_cycles`: DFS from `start` with
`visited = {start}`. -/
def dfsStart (fuel : Nat) (start : Nat) (g : GState) :
    Option (GState × List Nat) :=
  dfsRun start fuel start (snapshotSrc g start) g [start]

/-- The `for table in sorted_tables` loop of `break_cycles` over a
given list of start tables. -/
def breakAll (fuel : Nat) : List Nat → GState → Option GState
  | [], g => some g
  | t :: ts, g =>
      match dfsStart fuel t g with
      | none => none
      | some (g', _) => breakAll fuel ts g'

/-- `Graph.break_cycles`: run the DFS pass from every table of the
pre-computed table list (the Python name-sort only fixes which
deterministic order is used; the model processes the original tables
in id order). -/
def breakCycles (fuel : Nat) (g : GState) : Option GState :=
  breakAll fuel (List.range g.n) g

/-- One step of the "all sources" relation: `b` is a source of `a`. -/
def StepRel (g : GState) (a b : Nat) : Prop :=
  b ∈ g.src a

/-- A table reachable from itself through at least one source edge. -/
def SelfReach (g : GState) (t : Nat) : Prop :=
  Relation.TransGen (StepRel g) t t

/-- No table of the graph is reachable from itself. -/
def AcyclicG (g : GState) : Prop :=
  ∀ t, ¬ SelfReach g t

/-- Acyclicity of an optional result (vacuous when the fuel ran out). -/
def AcyclicO : Option GState → Prop
  | none => True
  | some g => AcyclicG g

/-- A well-formed input to `break_cycles`: no breakers yet, and tables
at or above `n` (nonexistent ones) have no sources. -/
def WfInput (g : GState) : Prop :=
  g.fresh = g.n ∧ ∀ x, g.n ≤ x → g.src x = []

/-- The invariant `break_cycles` maintains: breaker ids start at `n`,
and every table at or above `n` (breakers included) has no sources. -/
def InvG (g : GState) : Prop :=
  g.n ≤ g.fresh ∧ ∀ x, g.n ≤ x → g.src x = []

/-! ## Theorems -/

/-- C10: for every `ColumnContainer` state and every lookup key (name,
integer position, or `None`): a key that resolves to a stored column
returns that column; a key that does not resolve returns the star
column when it is initialized; and a `ColumnLookupError` is raised
exactly when the key does not resolve and the star column is
uninitialized. -/
theorem c10_getitem_star_fallback (c : CContainer) (key : CKey) :
    (∀ cid, resolveKey c key = some cid →
        getItem c key = Except.ok (CLookup.col cid)) ∧
    (resolveKey c key = none → c.starInit = true →
        getItem c key = Except.ok (CLookup.star c.starId)) ∧
    (∀ e, getItem c key = Except.error e ↔
        (resolveKey c key = none ∧ c.starInit = false ∧ e = PErr.columnLookup)) := by
  refine ⟨?_, ?_, ?_⟩
  · intro cid h
    simp [getItem, h]
  · intro h hs
    simp [getItem, h, hs]
  · intro e
    unfold getItem
    cases h : resolveKey c key with
    | some cid => simp
    | none =>
        by_cases hs : c.starInit = true
        · simp [hs]
        · simp at hs
          simp [hs]
          exact eq_comm

/-- C10 witness: a container holding a column `a` with an initialized
star column; the unresolved key `b` falls back to the star column. -/
def c10Example : CContainer :=
  { columnDict := [("a", 5)], columnOrderList := ["a"],
    starInit := true, starId := 9 }

/-- C10 witness at `c10Example` and key `"b"`. -/
theorem c10_getitem_star_fallback_witness :
    getItem c10Example (CKey.str "b") = Except.ok (CLookup.star 9) :=
  (c10_getitem_star_fallback c10Example (CKey.str "b")).2.1 rfl rfl

/-- C9: reading a grid item's serializing params while `ready` is unset
raises `SerializingParamsNotReady`; after the calculation pass has run
on the item (which ends by marking the params ready) the same access
returns them; and params are only ever observable with `ready` set. -/
theorem c9_serializing_params_gate (it : GItem) :
    (it.sp.ready = false →
        serializingParams it = Except.error PErr.spNotReady) ∧
    (∀ parent, serializingParams (calculateSerializingParams it parent) =
        Except.ok (calculateSerializingParams it parent).sp) ∧
    (∀ p, serializingParams it = Except.ok p →
        it.sp.ready = true ∧ p = it.sp) := by
  refine ⟨?_, ?_, ?_⟩
  · intro h
    simp [serializingParams, h]
  · intro parent
    have hready : (calculateSerializingParams it parent).sp.ready = true := by
      cases parent <;> simp [calculateSerializingParams, calcSerializingParams]
    simp [serializingParams, hready]
  · intro p h
    unfold serializingParams at h
    by_cases hr : it.sp.ready = true
    · simp [hr] at h
      exact ⟨hr, h.symm⟩
    · simp [hr] at h

/-- C9 witness example: a freshly constructed grid item. -/
def c9Example : GItem :=
  { sp := initialSParams, serializingId := "table1", labelText := "table1",
    widthConst := 0, verticalMargin := 10, maxWidthPenalty := 0,
    wrapFn := fun s _ => (s, 14) }

/-- C9 witness: the fresh item refuses access, and access succeeds
after the calculation pass. -/
theorem c9_serializing_params_gate_witness :
    serializingParams c9Example = Except.error PErr.spNotReady ∧
    serializingParams (calculateSerializingParams c9Example none) =
      Except.ok (calculateSerializingParams c9Example none).sp :=
  ⟨(c9_serializing_params_gate c9Example).1 rfl,
   (c9_serializing_params_gate c9Example).2.1 none⟩

/-- Replacing the value under a present key in an association list
makes lookup return the new value. -/
theorem findReplaceAux (l : List (String × NTable)) (nm : String) (t : NTable)
    (h : (l.find? (fun p => p.1 = nm)).isSome = true) :
    ((l.map (fun p => if p.1 = nm then (p.1, t) else p)).find?
        (fun p => p.1 = nm)).map (fun p => p.2) = some t := by
  induction l with
  | nil => simp at h
  | cons p rest ih =>
      by_cases hp : p.1 = nm
      · simp [List.find?_cons, hp]
      · rw [List.find?_cons_of_neg _ (by simp [hp])] at h
        rw [List.map_cons, if_neg hp,
            List.find?_cons_of_neg _ (by simp [hp])]
        exact ih h

/-- Replacing the entry under a present key makes lookup return the
new table. -/
theorem nsLookup_nsReplace (ns : GNamespace) (t : NTable) (ex : NTable)
    (h : nsLookup ns t.name = some ex) :
    nsLookup (nsReplace ns t.name t) t.name = some t := by
  have hsome : (ns.tables.find? (fun p => p.1 = t.name)).isSome = true := by
    unfold nsLookup at h
    cases hf : ns.tables.find? (fun p => p.1 = t.name) with
    | none => rw [hf] at h; simp at h
    | some p => simp [hf]
  unfold nsLookup nsReplace
  exact findReplaceAux ns.tables t.name t hsome

/-- C4: inserting a physical table into the graph-level namespace:
a free name is simply stored; a collision with an `ExternalTable`
replaces the namespace entry with the new table (lookup afterwards
finds the new table) and triggers `recalculate()` on the displaced
placeholder; a collision with any other table raises a `ParsingError`
and leaves the namespace unchanged. -/
theorem c4_physical_table_insertion (ns : GNamespace) (t : NTable) :
    (nsLookup ns t.name = none →
        graphAddTable ns t = (⟨ns.tables ++ [(t.name, t)]⟩, Except.ok none)) ∧
    (∀ ex, nsLookup ns t.name = some ex → ex.kind = TKind.externalT →
        graphAddTable ns t = (nsReplace ns t.name t, Except.ok (some ex)) ∧
        nsLookup (graphAddTable ns t).1 t.name = some t) ∧
    (∀ ex, nsLookup ns t.name = some ex → ex.kind ≠ TKind.externalT →
        graphAddTable ns t = (ns, Except.error PErr.parsingErr)) := by
  refine ⟨?_, ?_, ?_⟩
  · intro h
    simp [graphAddTable, baseAddTable, h]
  · intro ex h hk
    have hbase : baseAddTable ns t = (ns, Except.error PErr.parsingErr) := by
      simp [baseAddTable, h]
    have hres : graphAddTable ns t = (nsReplace ns t.name t, Except.ok (some ex)) := by
      simp [graphAddTable, hbase, h, hk]
    exact ⟨hres, by rw [hres]; exact nsLookup_nsReplace ns t ex h⟩
  · intro ex h hk
    have hbase : baseAddTable ns t = (ns, Except.error PErr.parsingErr) := by
      simp [baseAddTable, h]
    simp [graphAddTable, hbase, h, hk]

/-- C4 witness example: a namespace holding an external placeholder
`t1` and a select table `t2`. -/
def c4Example : GNamespace :=
  ⟨[("t1", ⟨"t1", TKind.externalT⟩), ("t2", ⟨"t2", TKind.selectT⟩)]⟩

/-- C4 witness: inserting a physical `t1` replaces the placeholder and
triggers its recalculation; inserting a physical `t2` errors with the
namespace unchanged; inserting `t3` stores it. -/
theorem c4_physical_table_insertion_witness :
    graphAddTable c4Example ⟨"t1", TKind.selectT⟩ =
      (⟨[("t1", ⟨"t1", TKind.selectT⟩), ("t2", ⟨"t2", TKind.selectT⟩)]⟩,
        Except.ok (some ⟨"t1", TKind.externalT⟩)) ∧
    graphAddTable c4Example ⟨"t2", TKind.selectT⟩ =
      (c4Example, Except.error PErr.parsingErr) ∧
    graphAddTable c4Example ⟨"t3", TKind.selectT⟩ =
      (⟨c4Example.tables ++ [("t3", ⟨"t3", TKind.selectT⟩)]⟩, Except.ok none) := by
  refine ⟨?_, ?_, ?_⟩
  · exact ((c4_physical_table_insertion c4Example ⟨"t1", TKind.selectT⟩).2.1
      ⟨"t1", TKind.externalT⟩ rfl rfl).1
  · exact (c4_physical_table_insertion c4Example ⟨"t2", TKind.selectT⟩).2.2
      ⟨"t2", TKind.selectT⟩ rfl (by simp)
  · exact (c4_physical_table_insertion c4Example ⟨"t3", TKind.selectT⟩).1 rfl

/-- The contribution of a non-final statement: its step info when it
was accepted, nothing when it was skipped or failed. -/
def acceptedStepInfo (st : List (String × Tok)) : Option StepInfo :=
  (processOtherStep st).toOption.bind id

/-- The foldM over non-final steps collects exactly the accepted
steps, in order, when none of them fails hard. -/
theorem processSteps_fold (l : List (List (String × Tok))) (acc : List StepInfo)
    (h : ∀ st ∈ l, ∀ e, processOtherStep st ≠ Except.error e) :
    l.foldlM (fun acc st => do
        match ← processOtherStep st with
        | some info => pure (acc ++ [info])
        | none => pure acc) acc =
      Except.ok (acc ++ l.filterMap acceptedStepInfo) := by
  induction l generalizing acc with
  | nil => simp only [List.foldlM_nil, List.filterMap_nil, List.append_nil]; rfl
  | cons st rest ih =>
      have hrest : ∀ s ∈ rest, ∀ e, processOtherStep s ≠ Except.error e :=
        fun s hs e => h s (List.mem_cons_of_mem _ hs) e
      cases hst : processOtherStep st with
      | error e => exact absurd hst (h st (List.mem_cons_self st rest) e)
      | ok oinfo =>
          cases oinfo with
          | none =>
              simp only [List.foldlM_cons, hst, List.filterMap_cons,
                acceptedStepInfo, Except.toOption]
              simpa using ih acc hrest
          | some info =>
              simp only [List.foldlM_cons, hst, List.filterMap_cons,
                acceptedStepInfo, Except.toOption]
              simpa using ih (acc ++ [info]) hrest

/-- C7: for a nonempty list of successfully parsed statements (none of
which crashes the payload reads), the processed step list consists of
exactly the accepted non-final statements, in order, followed by the
final statement recorded under the query's declared target table (not
temporary), whatever the final statement's shape; a non-final
statement is accepted only when its token tree is a single-key
`create table` object, any other shape contributing nothing. -/
theorem c7_steps_processing (targetTable : String)
    (steps : List (List (String × Tok)))
    (hne : steps ≠ [])
    (hwf : ∀ st ∈ steps.dropLast, ∀ e, processOtherStep st ≠ Except.error e) :
    processSteps targetTable steps = Except.ok
      (steps.dropLast.filterMap acceptedStepInfo ++
        [⟨targetTable, false, Tok.obj (steps.getLastD [])⟩]) ∧
    (∀ st ∈ steps.dropLast, ∀ info, acceptedStepInfo st = some info →
        st.length = 1 ∧ (tokLookup st "create table").isSome = true) ∧
    (∀ st ∈ steps.dropLast,
        ¬ (st.length = 1 ∧ (tokLookup st "create table").isSome = true) →
        acceptedStepInfo st = none) := by
  refine ⟨?_, ?_, ?_⟩
  · have hlast : steps.getLast? = some (steps.getLastD []) := by
      cases hl : steps.getLast? with
      | none => exact absurd (List.getLast?_eq_none_iff.mp hl) hne
      | some fin => simp [List.getLastD_eq_getLast?, hl]
    unfold processSteps
    rw [hlast]
    rw [processSteps_fold steps.dropLast [] hwf]
    simp
  · intro st _ info hacc
    unfold acceptedStepInfo at hacc
    unfold processOtherStep at hacc
    by_cases hshape : st.length = 1 ∧ (tokLookup st "create table").isSome = true
    · exact hshape
    · rw [if_neg (by simpa using hshape)] at hacc
      simp [Except.toOption] at hacc
  · intro st _ hshape
    unfold acceptedStepInfo processOtherStep
    rw [if_neg (by simpa using hshape)]
    simp [Except.toOption]

/-- C7 witness example: a two-statement query, `create table` then a
bare final select. -/
def c7ExSteps : List (List (String × Tok)) :=
  [[("create table", Tok.obj
      [("name", Tok.str "tmp"), ("query", Tok.obj [("select", Tok.str "*")])])],
   [("select", Tok.str "*")]]

/-- C7 witness at `c7ExSteps` with target table `t1`. -/
theorem c7_steps_processing_witness :
    processSteps "t1" c7ExSteps = Except.ok
      (c7ExSteps.dropLast.filterMap acceptedStepInfo ++
        [⟨"t1", false, Tok.obj (c7ExSteps.getLastD [])⟩]) :=
  (c7_steps_processing "t1" c7ExSteps (by simp [c7ExSteps])
    (by
      intro st hst e
      simp only [c7ExSteps, List.dropLast, List.mem_singleton] at hst
      subst hst
      intro h
      rw [show processOtherStep [("create table", Tok.obj
          [("name", Tok.str "tmp"),
           ("query", Tok.obj [("select", Tok.str "*")])])] =
        Except.ok (some ⟨"tmp", false, Tok.obj [("select", Tok.str "*")]⟩)
        from rfl] at h
      exact Except.noConfusion h)).1

/-- C2 counterexample input: two source tables, both exposing an
initialized star column, the first an `ExternalTable`, neither having
a column named `c`. -/
def c2Example : List SrcTable :=
  [⟨"e", [], true, true⟩, ⟨"v", ["x"], false, true⟩]

/-- C2 counterexample: the claim resolves a bare reference falling
through the by-name lookup against the unique source table exposing an
initialized star column and fails as ambiguous when two such tables
exist; on this input the claim therefore predicts a lookup error,
while the code attributes the reference to the unique external source
table. -/
theorem c2_lookup_counterexample :
    lookupSource c2Example "c" = Except.ok ("e", "c") ∧
    lookupSourceClaimed c2Example "c" = Except.error PErr.tableLookup := by
  constructor <;> rfl

/-- C2 (amended): qualified references split on the last dot; a bare
reference resolves to the first source table having a column of that
exact name; failing that, to the unique `ExternalTable` source if
exactly one exists; failing that, to the unique source table if the
table has exactly one source; otherwise the lookup fails with a table
lookup error.  (The code tests `isinstance(t, ExternalTable)` and the
number of sources; star columns are never inspected here.) -/
theorem c2_lookup_source_amended (sources : List SrcTable) (s : String) :
    (containsDot s = true → lookupSource sources s = Except.ok (rsplitDot s)) ∧
    (containsDot s = false →
      (∀ t, sources.find? (fun t => t.columns.contains s) = some t →
          lookupSource sources s = Except.ok (t.name, s)) ∧
      (sources.find? (fun t => t.columns.contains s) = none →
        (∀ t, sources.filter (fun t => t.isExt) = [t] →
            lookupSource sources s = Except.ok (t.name, s)) ∧
        ((sources.filter (fun t => t.isExt)).length ≠ 1 →
          (∀ t, sources = [t] → lookupSource sources s = Except.ok (t.name, s)) ∧
          (sources.length ≠ 1 →
            lookupSource sources s = Except.error PErr.tableLookup)))) := by
  constructor
  · intro hdot
    simp [lookupSource, hdot]
  · intro hdot
    refine ⟨?_, ?_⟩
    · intro t ht
      have hby : lookupSourceTableByColumn sources s = Except.ok t.name := by
        unfold lookupSourceTableByColumn
        rw [ht]
      simp [lookupSource, hdot, hby]
    · intro hnone
      have hbycol : lookupSourceTableByColumn sources s =
          Except.error PErr.columnLookup := by
        unfold lookupSourceTableByColumn
        rw [hnone]
      refine ⟨?_, ?_⟩
      · intro t ht
        have hextOk : lookupExternalSourceTable sources = Except.ok t.name := by
          unfold lookupExternalSourceTable
          rw [ht]
        simp [lookupSource, hdot, hbycol, hextOk]
      · intro hext
        have hextErr : lookupExternalSourceTable sources =
            Except.error PErr.tableLookup := by
          unfold lookupExternalSourceTable
          cases hf : sources.filter (fun t => t.isExt) with
          | nil => rfl
          | cons a rest =>
              cases rest with
              | nil => exact absurd (by rw [hf]; rfl) hext
              | cons b rest2 => rfl
        refine ⟨?_, ?_⟩
        · intro t ht
          subst ht
          simp [lookupSource, hdot, hbycol, hextErr, lookupSingleSourceTable,
            Except.map]
        · intro hlen
          have hsingle : lookupSingleSourceTable sources =
              Except.error PErr.tableLookup := by
            unfold lookupSingleSourceTable
            cases sources with
            | nil => rfl
            | cons a rest =>
                cases rest with
                | nil => simp at hlen
                | cons b rest2 => rfl
          simp [lookupSource, hdot, hbycol, hextErr, hsingle, Except.map]

/-- C2 witness inputs: a table with a single external source exposing
no matching column. -/
def c2WitnessSources : List SrcTable := [⟨"ext1", [], true, true⟩]

/-- C2 witness: the dot-splitting mode, the unique-external fallback
(one source) and the unique-external fallback (two sources, one
external) at concrete inputs. -/
theorem c2_lookup_source_amended_witness :
    lookupSource c2WitnessSources "tbl.col" = Except.ok ("tbl", "col") ∧
    lookupSource c2WitnessSources "c" = Except.ok ("ext1", "c") ∧
    lookupSource c2Example "c" = Except.ok ("e", "c") :=
  ⟨(c2_lookup_source_amended c2WitnessSources "tbl.col").1 rfl,
   (((c2_lookup_source_amended c2WitnessSources "c").2 rfl).2 rfl).1
     ⟨"ext1", [], true, true⟩ rfl,
   (((c2_lookup_source_amended c2Example "c").2 rfl).2 rfl).1
     ⟨"e", [], true, true⟩ rfl⟩

/-- C3 failing input, the source table: `a` with an initialized star
column (id 99) and one column `c` (id 10). -/
def c3Source : RSourceTable := ⟨"a", 99, true, [(10, "c")]⟩

/-- C3 failing input, the dependent's container after it copied table
`a` via `SELECT *`: it holds the copy of `c` (recorded in
`_columns_by_source` under the source *Column object* key) and carries
`a`'s star column as a star source. -/
def c3Container : CC3 :=
  ⟨[("c", ⟨10, some "c", [10]⟩)], ["c"], [(PKey.colObj 10, ["c"])], [99]⟩

/-- C3: the code contradicts the provenance design its own docstrings
describe.  The dependent already holds column `c` copied from source
`a`, so a replayed `redo_copy` should add nothing and report `False`;
instead, because `add_column` records provenance under the Column
object while `redo_copy` checks the table-name string (always the
empty set), every replay duplicates the column (`c_1`, then `c_2`) and
reports `True`, which in `Table.recalculate` keeps the recursion
going. -/
theorem c3_redo_copy_replay_mutates :
    ((redoCopy c3Container 99 c3Source).map
        (fun r => (r.1.columnOrderList, r.2)) =
      Except.ok (["c", "c_1"], true)) ∧
    (((redoCopy c3Container 99 c3Source).bind
        (fun r => redoCopy r.1 99 c3Source)).map
        (fun r => (r.1.columnOrderList, r.2)) =
      Except.ok (["c", "c_1", "c_2"], true)) := by
  constructor <;> rfl

/-- C5 counterexample input: the mutually inverse single edge
`sources 0 = [1]`, `references 1 = [0]`. -/
def c5Example : RefState :=
  ⟨fun a => if a = 0 then [1] else [], fun b => if b = 1 then [0] else []⟩

/-- C5 counterexample: dropping B's (= item 1's) reference to
A (= item 0) via `drop_reference` succeeds but leaves item 0's source
list still containing item 1, contradicting the claim that removal
from either side leaves neither list containing the other item. -/
theorem c5_drop_reference_counterexample :
    (dropReference c5Example 1 0).2 = none ∧
    (dropReference c5Example 1 0).1.references 1 = [] ∧
    (dropReference c5Example 1 0).1.sources 0 = [1] := by
  refine ⟨rfl, rfl, rfl⟩

/-- C5 (amended): on a well-formed state, `A.add_source(B)` records the
edge on both sides and preserves well-formedness; `A.remove_source(B)`
of a present edge succeeds and removes it from both sides, preserving
well-formedness.  (`drop_reference` alone, documented
"should only be called inside remove_source", removes only the
back-pointer.) -/
theorem c5_sources_references_amended (st : RefState) (a b : Nat)
    (hwf : WfRefState st) :
    (b ∈ (addSource st a b).sources a ∧
     a ∈ (addSource st a b).references b ∧
     WfRefState (addSource st a b)) ∧
    (b ∈ st.sources a →
      (removeSource st a b).2 = none ∧
      b ∉ (removeSource st a b).1.sources a ∧
      a ∉ (removeSource st a b).1.references b ∧
      WfRefState (removeSource st a b).1) := by
  obtain ⟨hns, hnr, hiff⟩ := hwf
  constructor
  · by_cases hmem : b ∈ st.sources a
    · have hadd : addSource st a b = st := by
        unfold addSource
        rw [if_pos hmem]
      rw [hadd]
      exact ⟨hmem, (hiff a b).mp hmem, hns, hnr, hiff⟩
    · have hrmem : a ∉ st.references b := fun hc => hmem ((hiff a b).mpr hc)
      have hadd : addSource st a b =
          { sources := updList st.sources a (st.sources a ++ [b]),
            references := updList st.references b (st.references b ++ [a]) } := by
        unfold addSource registerReference
        rw [if_neg hmem, if_neg hrmem]
      rw [hadd]
      refine ⟨by simp [updList], by simp [updList], ?_, ?_, ?_⟩
      · intro x
        by_cases hx : x = a
        · subst hx
          simp [updList, List.nodup_append, hns x, hmem]
        · simp [updList, hx, hns x]
      · intro y
        by_cases hy : y = b
        · subst hy
          simp [updList, List.nodup_append, hnr y, hrmem]
        · simp [updList, hy, hnr y]
      · intro x y
        simp only [updList]
        by_cases hx : x = a <;> by_cases hy : y = b <;>
          simp [hx, hy, hiff x y, hiff a y, hiff x b]
  · intro hmem
    have hrmem : a ∈ st.references b := (hiff a b).mp hmem
    have hrem : removeSource st a b =
        ({ sources := updList st.sources a ((st.sources a).erase b),
           references := updList st.references b ((st.references b).erase a) },
         none) := by
      unfold removeSource dropReference
      rw [if_pos hmem]
      simp only [updList]
      rw [if_pos (by simpa using hrmem)]
    rw [hrem]
    refine ⟨rfl, ?_, ?_, ?_, ?_, ?_⟩
    · simp only [updList, if_pos rfl]
      intro hc
      exact (((hns a).mem_erase_iff.mp hc).1) rfl
    · simp only [updList, if_pos rfl]
      intro hc
      exact (((hnr b).mem_erase_iff.mp hc).1) rfl
    · intro x
      by_cases hx : x = a <;> simp [updList, hx, (hns _).erase, hns x]
    · intro y
      by_cases hy : y = b <;> simp [updList, hy, (hnr _).erase, hnr y]
    · intro x y
      simp only [updList]
      by_cases hx : x = a <;> by_cases hy : y = b <;>
        simp [hx, hy, (hns a).mem_erase_iff, (hnr b).mem_erase_iff,
          hiff x y, hiff a y, hiff x b]

/-- C5 witness: the amended behavior at the concrete one-edge state. -/
theorem c5_sources_references_amended_witness :
    WfRefState c5Example ∧
    1 ∈ (addSource c5Example 0 1).sources 0 ∧
    0 ∈ (addSource c5Example 0 1).references 1 ∧
    (removeSource c5Example 0 1).2 = none ∧
    1 ∉ (removeSource c5Example 0 1).1.sources 0 ∧
    0 ∉ (removeSource c5Example 0 1).1.references 1 := by
  have hwf : WfRefState c5Example := by
    refine ⟨?_, ?_, ?_⟩
    · intro x
      by_cases hx : x = 0 <;> simp [c5Example, hx]
    · intro y
      by_cases hy : y = 1 <;> simp [c5Example, hy]
    · intro x y
      by_cases hx : x = 0 <;> by_cases hy : y = 1 <;>
        simp [c5Example, hx, hy]
  have h := c5_sources_references_amended c5Example 0 1 hwf
  have hmem : 1 ∈ c5Example.sources 0 := by simp [c5Example]
  exact ⟨hwf, h.1.1, h.1.2.1, (h.2 hmem).1, (h.2 hmem).2.1, (h.2 hmem).2.2.1⟩

/-- C6 counterexample branches: branch `t1` with column `a` and an
initialized star, branch `t2` with no columns and an initialized
star. -/
def c6Branch1 : BranchTable := ⟨"t1", ["a"], true⟩

/-- Second C6 counterexample branch. -/
def c6Branch2 : BranchTable := ⟨"t2", [], true⟩

/-- C6 counterexample: the claim predicts a parse error (branch `t2`
has no column `a`, a column-count mismatch) and columns sourced only
from same-named branch columns; the code instead succeeds, builds
output columns `*` and `a`, and sources `a` from `t2`'s star column. -/
theorem c6_union_counterexample :
    parseUnion [] [c6Branch1, c6Branch2] =
      Except.ok ([c6Branch1, c6Branch2],
        [("*", [UColSource.starOf "t1", UColSource.starOf "t2"]),
         ("a", [UColSource.named "t1" "a", UColSource.starOf "t2"])]) ∧
    parseUnionClaimed [] [c6Branch1, c6Branch2] =
      Except.error PErr.unknownScenario := by
  constructor <;> rfl

/-- The per-branch resolution expression `resolveAll` computes when
every source can supply the column. -/
def unionResolved (sources : List BranchTable) (nm : String) : List UColSource :=
  sources.map (fun b =>
    if nm ∈ b.columns then UColSource.named b.name nm
    else UColSource.starOf b.name)

/-- `resolveAll` succeeds when every source has the column or an
initialized star, producing the same-named column where present and
the star otherwise. -/
theorem resolveAll_ok (sources : List BranchTable) (nm : String)
    (h : ∀ b ∈ sources, nm ∈ b.columns ∨ b.starInit = true) :
    resolveAll sources nm = Except.ok (unionResolved sources nm) := by
  induction sources with
  | nil => rfl
  | cons b rest ih =>
      have hrest : ∀ s ∈ rest, nm ∈ s.columns ∨ s.starInit = true :=
        fun s hs => h s (List.mem_cons_of_mem _ hs)
      unfold resolveAll
      by_cases hcol : nm ∈ b.columns
      · have hu : unionResolve b nm = Except.ok (UColSource.named b.name nm) := by
          unfold unionResolve
          rw [if_pos (by simpa using hcol)]
        rw [hu, ih hrest]
        simp [unionResolved, hcol, Except.map]
      · have hstar : b.starInit = true := by
          rcases h b (List.mem_cons_self b rest) with hc | hs
          · exact absurd hc hcol
          · exact hs
        have hu : unionResolve b nm = Except.ok (UColSource.starOf b.name) := by
          unfold unionResolve
          rw [if_neg (by simpa using hcol), if_pos hstar]
        rw [hu, ih hrest]
        simp [unionResolved, hcol, Except.map]

/-- `resolveAll` fails when some source lacks both the column and an
initialized star. -/
theorem resolveAll_err (sources : List BranchTable) (nm : String)
    (h : ∃ b ∈ sources, nm ∉ b.columns ∧ b.starInit = false) :
    ∃ e, resolveAll sources nm = Except.error e := by
  induction sources with
  | nil => simp at h
  | cons b rest ih =>
      obtain ⟨b', hb', hnc, hns⟩ := h
      unfold resolveAll
      rcases List.mem_cons.mp hb' with h1 | hmem
      · have hu : unionResolve b nm = Except.error PErr.columnLookup := by
          unfold unionResolve
          rw [if_neg (by simp [← h1, hnc]), if_neg (by simp [← h1, hns])]
        rw [hu]
        exact ⟨PErr.columnLookup, rfl⟩
      · cases hu : unionResolve b nm with
        | error e => exact ⟨e, rfl⟩
        | ok c =>
            obtain ⟨e, he⟩ := ih ⟨b', hmem, hnc, hns⟩
            exact ⟨e, by rw [he]; rfl⟩

/-- The union column-building fold, success case. -/
theorem unionFold_ok (sources : List BranchTable) (names : List String)
    (acc : List (String × List UColSource))
    (h : ∀ nm ∈ names, ∀ b ∈ sources, nm ∈ b.columns ∨ b.starInit = true) :
    names.foldlM (fun (acc : List (String × List UColSource)) nm =>
        match resolveAll sources nm with
        | Except.ok cs => Except.ok (acc ++ [(nm, cs)])
        | Except.error _ => Except.error PErr.unknownScenario) acc =
      Except.ok (acc ++ names.map (fun nm => (nm, unionResolved sources nm))) := by
  induction names generalizing acc with
  | nil => simp only [List.foldlM_nil, List.map_nil, List.append_nil]; rfl
  | cons nm rest ih =>
      rw [List.foldlM_cons,
        resolveAll_ok sources nm (h nm (List.mem_cons_self nm rest))]
      have hrest : ∀ s ∈ rest, ∀ b ∈ sources, s ∈ b.columns ∨ b.starInit = true :=
        fun s hs => h s (List.mem_cons_of_mem _ hs)
      simpa using ih (acc ++ [(nm, unionResolved sources nm)]) hrest

/-- The union column-building fold, failure case. -/
theorem unionFold_err (sources : List BranchTable) (names : List String)
    (acc : List (String × List UColSource))
    (h : ∃ nm ∈ names, ∃ b ∈ sources, nm ∉ b.columns ∧ b.starInit = false) :
    names.foldlM (fun (acc : List (String × List UColSource)) nm =>
        match resolveAll sources nm with
        | Except.ok cs => Except.ok (acc ++ [(nm, cs)])
        | Except.error _ => Except.error PErr.unknownScenario) acc =
      Except.error PErr.unknownScenario := by
  induction names generalizing acc with
  | nil => simp at h
  | cons nm rest ih =>
      obtain ⟨nm', hnm', hex⟩ := h
      rcases List.mem_cons.mp hnm' with h1 | hmem
      · obtain ⟨e, he⟩ := resolveAll_err sources nm (h1 ▸ hex)
        rw [List.foldlM_cons, he]
        rfl
      · cases hr : resolveAll sources nm with
        | error e =>
            rw [List.foldlM_cons, hr]
            rfl
        | ok cs =>
            rw [List.foldlM_cons, hr]
            simpa using ih (acc ++ [(nm, cs)]) ⟨nm', hmem, hex⟩

/-- C6 (amended): when parsing a UNION/UNION ALL, all per-branch
virtual tables are created and added as sources first; then exactly
one output column is built per distinct name observed across the
branches (the star column's `*` included when a branch's star is
initialized), each sourced from the same-named column of every source
table when present and from that table's initialized star column
otherwise; a parse error arises exactly when some source table has
neither the named column nor an initialized star column. -/
theorem c6_parse_union_amended (initialSources branches : List BranchTable) :
    ((∀ nm ∈ unionNames branches, ∀ b ∈ initialSources ++ branches,
        nm ∈ b.columns ∨ b.starInit = true) →
      parseUnion initialSources branches =
        Except.ok (initialSources ++ branches,
          (unionNames branches).map (fun nm =>
            (nm, unionResolved (initialSources ++ branches) nm)))) ∧
    ((∃ nm ∈ unionNames branches, ∃ b ∈ initialSources ++ branches,
        nm ∉ b.columns ∧ b.starInit = false) →
      parseUnion initialSources branches =
        Except.error PErr.unknownScenario) := by
  constructor
  · intro h
    simp only [parseUnion]
    rw [unionFold_ok (initialSources ++ branches) (unionNames branches) [] h]
    rfl
  · intro h
    simp only [parseUnion]
    rw [unionFold_err (initialSources ++ branches) (unionNames branches) [] h]
    rfl

/-- C6 witness: the amended behavior at the counterexample branches
(all names resolvable, star fallback used). -/
theorem c6_parse_union_amended_witness :
    (∀ nm ∈ unionNames [c6Branch1, c6Branch2],
        ∀ b ∈ ([] : List BranchTable) ++ [c6Branch1, c6Branch2],
        nm ∈ b.columns ∨ b.starInit = true) ∧
    parseUnion [] [c6Branch1, c6Branch2] =
      Except.ok (([] : List BranchTable) ++ [c6Branch1, c6Branch2],
        (unionNames [c6Branch1, c6Branch2]).map (fun nm =>
          (nm, unionResolved (([] : List BranchTable) ++ [c6Branch1, c6Branch2]) nm))) := by
  have hcond : ∀ nm ∈ unionNames [c6Branch1, c6Branch2],
      ∀ b ∈ ([] : List BranchTable) ++ [c6Branch1, c6Branch2],
      nm ∈ b.columns ∨ b.starInit = true := by
    decide
  exact ⟨hcond, (c6_parse_union_amended [] [c6Branch1, c6Branch2]).1 hcond⟩

/-- The relaxation property the topological sort establishes: every
source's order sits strictly below its reader's. -/
def TopoOK (srcs : Nat → List Nat) (tables : List Nat) (ord : Nat → Int) : Prop :=
  ∀ t ∈ tables, ∀ s ∈ srcs t, ord s ≤ ord t - 1

/-- The queue invariant of the relaxation loop: every table either has
all its source edges relaxed or still sits in the queue. -/
def TopoInv (srcs : Nat → List Nat) (tables : List Nat) (q : List Nat)
    (ord : Nat → Int) : Prop :=
  ∀ t ∈ tables, (∀ s ∈ srcs t, ord s ≤ ord t - 1) ∨ t ∈ q

/-- Relaxation only ever decreases orders. -/
theorem relaxFold_le (t : Nat) (l : List Nat) (ord : Nat → Int) (x : Nat) :
    relaxFold t l ord x ≤ ord x := by
  induction l generalizing ord with
  | nil => exact le_refl _
  | cons s rest ih =>
      unfold relaxFold
      refine le_trans (ih _) ?_
      unfold updF
      by_cases hx : x = s
      · subst hx
        simp [min_le_left]
      · simp [hx]

/-- Relaxation does not touch orders outside the processed list. -/
theorem relaxFold_frame (t : Nat) (l : List Nat) (ord : Nat → Int) (y : Nat)
    (hy : y ∉ l) : relaxFold t l ord y = ord y := by
  induction l generalizing ord with
  | nil => rfl
  | cons s rest ih =>
      unfold relaxFold
      have hys : y ≠ s := fun h => hy (h ▸ List.mem_cons_self y rest)
      have hyr : y ∉ rest := fun h => hy (List.mem_cons_of_mem _ h)
      rw [ih _ hyr]
      unfold updF
      simp [hys]

/-- After relaxing all of `t`'s edges (when `t` is not its own
source), every relaxed source sits strictly below `t`. -/
theorem relaxFold_bound (t : Nat) (l : List Nat) (ord : Nat → Int)
    (hself : t ∉ l) :
    ∀ s ∈ l, relaxFold t l ord s ≤ relaxFold t l ord t - 1 := by
  induction l generalizing ord with
  | nil => intro s hs; simp at hs
  | cons s0 rest ih =>
      intro s hs
      have hts0 : t ≠ s0 := fun h => hself (h ▸ List.mem_cons_self t rest)
      have htr : t ∉ rest := fun h => hself (List.mem_cons_of_mem _ h)
      unfold relaxFold
      have hordT : relaxFold t rest (updF ord s0 (min (ord s0) (ord t - 1))) t =
          ord t := by
        rw [relaxFold_frame t rest _ t htr]
        unfold updF
        simp [hts0]
      rcases List.mem_cons.mp hs with h1 | hmem
      · subst h1
        rw [hordT]
        refine le_trans (relaxFold_le t rest _ s) ?_
        unfold updF
        simp [min_le_right]
      · have := ih (updF ord s0 (min (ord s0) (ord t - 1))) htr s hmem
        rw [relaxFold_frame t rest _ t htr] at this
        rw [hordT]
        refine le_trans this ?_
        unfold updF
        simp [hts0]

/-- One pop of the relaxation queue preserves the invariant. -/
theorem topoInv_step (srcs : Nat → List Nat) (tables : List Nat)
    (t : Nat) (q : List Nat) (ord : Nat → Int)
    (hinv : TopoInv srcs tables (t :: q) ord) :
    TopoInv srcs tables (q ++ srcs t) (relaxFold t (srcs t) ord) := by
  intro u hu
  rcases hinv u hu with hdone | hq
  · by_cases hmem : u ∈ srcs t
    · exact Or.inr (List.mem_append_right _ hmem)
    · refine Or.inl (fun s hs => ?_)
      have hframe : relaxFold t (srcs t) ord u = ord u :=
        relaxFold_frame t (srcs t) ord u hmem
      rw [hframe]
      exact le_trans (relaxFold_le t (srcs t) ord s) (hdone s hs)
  · rcases List.mem_cons.mp hq with h1 | hmem
    · subst h1
      by_cases hself : u ∈ srcs u
      · exact Or.inr (List.mem_append_right _ hself)
      · exact Or.inl (relaxFold_bound u (srcs u) ord hself)
    · exact Or.inr (List.mem_append_left _ hmem)

/-- A completed relaxation queue run establishes the topological
property for any set of tables the invariant covered. -/
theorem topoSortAux_ok (srcs : Nat → List Nat) (tables : List Nat) :
    ∀ (fuel : Nat) (q : List Nat) (ord ord' : Nat → Int),
      topoSortAux srcs fuel q ord = some ord' →
      TopoInv srcs tables q ord → TopoOK srcs tables ord' := by
  intro fuel
  induction fuel with
  | zero =>
      intro q ord ord' hrun hinv
      cases q with
      | nil =>
          cases hrun
          intro t ht
          rcases hinv t ht with hdone | hq
          · exact hdone
          · simp at hq
      | cons t q' => exact absurd hrun (by unfold topoSortAux; simp)
  | succ fuel ih =>
      intro q ord ord' hrun hinv
      cases q with
      | nil =>
          cases hrun
          intro t ht
          rcases hinv t ht with hdone | hq
          · exact hdone
          · simp at hq
      | cons t q' =>
          have hstep := topoInv_step srcs tables t q' ord hinv
          exact ih (q' ++ srcs t) (relaxFold t (srcs t) ord) ord' hrun hstep

/-- `tableTopologicalSort`, when it completes, orders every source
strictly below each of its readers. -/
theorem tableTopologicalSort_ok (srcs : Nat → List Nat) (tables : List Nat)
    (fuel : Nat) (ord : Nat → Int)
    (hrun : tableTopologicalSort srcs tables fuel = some ord) :
    TopoOK srcs tables ord := by
  refine topoSortAux_ok srcs tables fuel tables (fun _ => 0) ord hrun ?_
  intro t ht
  exact Or.inr ht

/-- `sortInsert` permutes the element into the list. -/
theorem sortInsert_perm (lt : Nat → Nat → Bool) (x : Nat) (l : List Nat) :
    (sortInsert lt x l).Perm (x :: l) := by
  induction l with
  | nil => exact List.Perm.refl _
  | cons y ys ih =>
      unfold sortInsert
      by_cases h : lt x y = true
      · rw [if_pos h]
      · rw [if_neg h]
        exact (ih.cons y).trans (List.Perm.swap x y ys)

/-- Python's `sorted` is a permutation of its input. -/
theorem sortTables_perm (lt : Nat → Nat → Bool) (l : List Nat) :
    (sortTables lt l).Perm l := by
  induction l with
  | nil => exact List.Perm.refl _
  | cons x xs ih =>
      unfold sortTables
      rw [List.foldr_cons]
      exact (sortInsert_perm lt x _).trans (ih.cons x)

/-- Insertion keeps any weight-monotonicity the comparison implies. -/
theorem sortInsert_pairwise (lt : Nat → Nat → Bool) (f : Nat → Int)
    (h1 : ∀ a b, lt a b = true → f b ≤ f a)
    (h2 : ∀ a b, lt a b = false → f a ≤ f b)
    (x : Nat) (l : List Nat)
    (hp : l.Pairwise (fun a b => f b ≤ f a)) :
    (sortInsert lt x l).Pairwise (fun a b => f b ≤ f a) := by
  induction l with
  | nil => simp [sortInsert]
  | cons y ys ih =>
      unfold sortInsert
      have hp' := List.pairwise_cons.mp hp
      by_cases h : lt x y = true
      · rw [if_pos h]
        refine List.pairwise_cons.mpr ⟨?_, hp⟩
        intro z hz
        rcases List.mem_cons.mp hz with h1' | hzys
        · exact h1' ▸ h1 x y h
        · exact le_trans (hp'.1 z hzys) (h1 x y h)
      · rw [if_neg h]
        have hfalse : lt x y = false := by
          simp at h
          exact h
        refine List.pairwise_cons.mpr ⟨?_, ih hp'.2⟩
        intro z hz
        have hz' := (sortInsert_perm lt x ys).mem_iff.mp hz
        rcases List.mem_cons.mp hz' with h1' | hzys
        · exact h1' ▸ h2 x y hfalse
        · exact hp'.1 z hzys

/-- The sorted table list is weight-sorted: any earlier element has a
weight at least that of any later one. -/
theorem sortTables_pairwise (lt : Nat → Nat → Bool) (f : Nat → Int)
    (h1 : ∀ a b, lt a b = true → f b ≤ f a)
    (h2 : ∀ a b, lt a b = false → f a ≤ f b)
    (l : List Nat) :
    (sortTables lt l).Pairwise (fun a b => f b ≤ f a) := by
  induction l with
  | nil => simp [sortTables]
  | cons x xs ih =>
      unfold sortTables
      rw [List.foldr_cons]
      exact sortInsert_pairwise lt f h1 h2 x _ ih

/-- A true `keyLt` comparison means the second table's order is at
most the first's (the sort is ascending in `-order`). -/
theorem keyLt_true_le (ord : Nat → Int) (nameOf : Nat → String) (a b : Nat)
    (h : keyLt ord nameOf a b = true) : ord b ≤ ord a := by
  unfold keyLt at h
  simp only [Bool.or_eq_true, Bool.and_eq_true, decide_eq_true_eq] at h
  rcases h with h | ⟨h, _⟩
  · omega
  · omega

/-- A false `keyLt` comparison means the first table's order is at
most the second's. -/
theorem keyLt_false_le (ord : Nat → Int) (nameOf : Nat → String) (a b : Nat)
    (h : keyLt ord nameOf a b = false) : ord a ≤ ord b := by
  unfold keyLt at h
  simp only [Bool.or_eq_false_iff, Bool.and_eq_false_iff, decide_eq_false_iff_not] at h
  have := h.1
  omega

/-- The reference-min pass only decreases the placed table's column. -/
theorem refsFold_le_self (t : Nat) (l : List Nat) (gx : Nat → Int) :
    refsFold t l gx t ≤ gx t := by
  induction l generalizing gx with
  | nil => exact le_refl _
  | cons r rest ih =>
      unfold refsFold
      refine le_trans (ih _) ?_
      unfold updF
      simp [min_le_right]

/-- The reference-min pass leaves other tables' columns unchanged. -/
theorem refsFold_frame (t : Nat) (l : List Nat) (gx : Nat → Int) (y : Nat)
    (hy : y ≠ t) : refsFold t l gx y = gx y := by
  induction l generalizing gx with
  | nil => rfl
  | cons r rest ih =>
      unfold refsFold
      rw [ih _]
      unfold updF
      simp [hy]

/-- After the reference-min pass the placed table sits strictly below
every reference's (unchanged) column. -/
theorem refsFold_bound (t : Nat) (l : List Nat) (gx : Nat → Int) :
    ∀ r ∈ l, r ≠ t → refsFold t l gx t ≤ gx r - 1 := by
  induction l generalizing gx with
  | nil => intro r hr; simp at hr
  | cons r0 rest ih =>
      intro r hr hrt
      unfold refsFold
      rcases List.mem_cons.mp hr with h1 | hmem
      · subst h1
        refine le_trans (refsFold_le_self t rest _) ?_
        unfold updF
        simp only [if_pos rfl]
        exact min_le_left _ _
      · have := ih (updF gx t (min (gx r0 - 1) (gx t))) r hmem hrt
        rw [show updF gx t (min (gx r0 - 1) (gx t)) r = gx r by
          unfold updF; simp [hrt]] at this
        exact this

/-- The height-budget loop only ever moves a table further left. -/
theorem shiftLeft_le (vc : Int → Nat) (ch : Int → Nat) (h : Nat) :
    ∀ (fuel : Nat) (x : Int), shiftLeft vc ch h fuel x ≤ x := by
  intro fuel
  induction fuel with
  | zero => intro x; exact le_refl _
  | succ fuel ih =>
      intro x
      unfold shiftLeft
      by_cases hc : vc x ≠ 0 ∧ ch x + h > MAX_PIXELS_PER_GRID_COLUMN
      · rw [if_pos hc]
        exact le_trans (ih (x - 1)) (by omega)
      · rw [if_neg hc]

/-- Placing one table does not move any other table's column. -/
theorem placeTable_frame (refs : Nat → List Nat) (heightOf widthOf : Nat → Nat)
    (fuel : Nat) (st : PlaceState) (t y : Nat) (hy : y ≠ t) :
    (placeTable refs heightOf widthOf fuel st t).gridX y = st.gridX y := by
  unfold placeTable
  simp only [updF]
  rw [if_neg hy]
  exact refsFold_frame t (refs t) st.gridX y hy

/-- The freshly placed table ends strictly left of every distinct
reference's current column. -/
theorem placeTable_bound (refs : Nat → List Nat) (heightOf widthOf : Nat → Nat)
    (fuel : Nat) (st : PlaceState) (t : Nat) :
    ∀ r ∈ refs t, r ≠ t →
      (placeTable refs heightOf widthOf fuel st t).gridX t ≤ st.gridX r - 1 := by
  intro r hr hrt
  unfold placeTable
  simp only [updF, if_pos rfl]
  refine le_trans (shiftLeft_le _ _ _ _ _) ?_
  exact refsFold_bound t (refs t) st.gridX r hr hrt

/-- The placement fold: once the processed prefix respects the
left-of-references ordering, the whole fold does, for every table. -/
theorem placeFold_inv (refs : Nat → List Nat) (heightOf widthOf : Nat → Nat)
    (fuel : Nat) (ord : Nat → Int) (tables : List Nat)
    (hedge : ∀ t ∈ tables, ∀ r ∈ refs t, r ∈ tables → ord t < ord r) :
    ∀ (l P : List Nat) (st : PlaceState),
      (P ++ l).Nodup →
      (P ++ l).Pairwise (fun a b => ord b ≤ ord a) →
      (∀ a, a ∈ tables ↔ a ∈ P ++ l) →
      (∀ a ∈ P, ∀ r ∈ refs a, r ∈ tables → st.gridX a < st.gridX r) →
      (∀ a ∈ tables, ∀ r ∈ refs a, r ∈ tables →
        (l.foldl (placeTable refs heightOf widthOf fuel) st).gridX a <
        (l.foldl (placeTable refs heightOf widthOf fuel) st).gridX r) := by
  intro l
  induction l with
  | nil =>
      intro P st _ _ hmem hst a ha r hr hrtab
      simp only [List.foldl_nil]
      exact hst a (by simpa using (hmem a).mp ha) r hr hrtab
  | cons x rest ih =>
      intro P st hnd hpw hmem hst
      simp only [List.foldl_cons]
      have hxnotP : x ∉ P := by
        rcases List.nodup_append.mp hnd with ⟨_, _, hdisj⟩
        intro hc
        exact hdisj hc (List.mem_cons_self x rest)
      have hassoc : P ++ x :: rest = (P ++ [x]) ++ rest := by simp
      refine ih (P ++ [x]) (placeTable refs heightOf widthOf fuel st x)
        (by rw [← hassoc]; exact hnd) (by rw [← hassoc]; exact hpw)
        (fun a => by rw [hmem a, hassoc]) ?_
      intro a ha r hr hrtab
      have hatab : a ∈ tables := by
        refine (hmem a).mpr ?_
        rcases List.mem_append.mp ha with h | h
        · exact List.mem_append_left _ h
        · simp at h
          subst h
          exact List.mem_append_right _ (List.mem_cons_self a rest)
      have hordar : ord a < ord r := hedge a hatab r hr hrtab
      rcases List.mem_append.mp ha with haP | hax
      · have hax : a ≠ x := fun h => hxnotP (h ▸ haP)
        have hordxa : ord x ≤ ord a :=
          (List.pairwise_append.mp hpw).2.2 a haP x (List.mem_cons_self x rest)
        have hrx : r ≠ x := by
          intro h
          subst h
          omega
        rw [placeTable_frame refs heightOf widthOf fuel st x a hax,
            placeTable_frame refs heightOf widthOf fuel st x r hrx]
        exact hst a haP r hr hrtab
      · have hax : a = x := by simpa using hax
        subst hax
        have hrP : r ∈ P := by
          rcases List.mem_append.mp ((hmem r).mp hrtab) with h | h
          · exact h
          · rcases List.mem_cons.mp h with h1 | h1
            · subst h1
              omega
            · have hordra : ord r ≤ ord a :=
                (List.pairwise_cons.mp (List.pairwise_append.mp hpw).2.1).1 r h1
              omega
        have hra : r ≠ a := by
          intro h
          subst h
          omega
        have hframe := placeTable_frame refs heightOf widthOf fuel st a r hra
        have hbound := placeTable_bound refs heightOf widthOf fuel st a r hr hra
        rw [hframe]
        omega

/-- The x-ordering property the claim asserts of the slot placement
result (vacuous when the topological sort's fuel ran out). -/
def xOrderOK (tables : List Nat) (refs : Nat → List Nat) :
    Option PlaceState → Prop
  | none => True
  | some st =>
      ∀ t ∈ tables, ∀ r ∈ refs t, r ∈ tables → st.gridX t < st.gridX r

/-- C8: for every finished graph whose table list has no duplicates
and whose sources/references relations are mutual inverses, the
topological layout (sort then slot placement, height-budget shift
included) assigns every table a grid column strictly to the left of
every table that depends on it — the budget pass only ever moves a
table further left, so the property survives it. -/
theorem c8_layout_left_of_references (srcs refs : Nat → List Nat)
    (nameOf : Nat → String) (heightOf widthOf : Nat → Nat)
    (tables : List Nat) (sortFuel shiftFuel : Nat)
    (hinv : ∀ t r, r ∈ refs t ↔ t ∈ srcs r)
    (hnd : tables.Nodup) :
    xOrderOK tables refs
      (topologicalLayoutSlots srcs refs nameOf heightOf widthOf tables
        sortFuel shiftFuel) := by
  unfold topologicalLayoutSlots
  cases hsort : tableTopologicalSort srcs tables sortFuel with
  | none => exact trivial
  | some ord =>
      have htopo := tableTopologicalSort_ok srcs tables sortFuel ord hsort
      have hedge : ∀ t ∈ tables, ∀ r ∈ refs t, r ∈ tables → ord t < ord r := by
        intro t ht r hr hrtab
        have hsrc : t ∈ srcs r := (hinv t r).mp hr
        have := htopo r hrtab t hsrc
        omega
      show xOrderOK tables refs (some _)
      unfold xOrderOK calculateSlotPositions
      have hperm : (sortTables (keyLt ord nameOf) tables).Perm tables :=
        sortTables_perm _ _
      have hnd' : (sortTables (keyLt ord nameOf) tables).Nodup :=
        hperm.nodup_iff.mpr hnd
      have hpw : (sortTables (keyLt ord nameOf) tables).Pairwise
          (fun a b => ord b ≤ ord a) :=
        sortTables_pairwise _ ord
          (fun a b h => keyLt_true_le ord nameOf a b h)
          (fun a b h => keyLt_false_le ord nameOf a b h) tables
      exact placeFold_inv refs heightOf widthOf shiftFuel ord tables hedge
        (sortTables (keyLt ord nameOf) tables) [] initialPlaceState
        (by simpa using hnd') (by simpa using hpw)
        (fun a => by simpa using (hperm.mem_iff (a := a)).symm)
        (by intro a ha; simp at ha)

/-- C8 witness graph: table 1 reads table 0. -/
def c8Srcs : Nat → List Nat := fun t => if t = 1 then [0] else []

/-- C8 witness references (inverse of `c8Srcs`). -/
def c8Refs : Nat → List Nat := fun t => if t = 0 then [1] else []

/-- C8 witness: the layout property at the concrete two-table graph. -/
theorem c8_layout_left_of_references_witness :
    (∀ t r, r ∈ c8Refs t ↔ t ∈ c8Srcs r) ∧
    ([0, 1] : List Nat).Nodup ∧
    xOrderOK [0, 1] c8Refs
      (topologicalLayoutSlots c8Srcs c8Refs
        (fun t => if t = 0 then "a" else "b")
        (fun _ => 100) (fun _ => 180) [0, 1] 10 3) := by
  have hinv : ∀ t r, r ∈ c8Refs t ↔ t ∈ c8Srcs r := by
    intro t r
    by_cases ht : t = 0 <;> by_cases hr : r = 1 <;>
      simp [c8Refs, c8Srcs, ht, hr]
  exact ⟨hinv, by decide,
    c8_layout_left_of_references c8Srcs c8Refs
      (fun t => if t = 0 then "a" else "b") (fun _ => 100) (fun _ => 180)
      [0, 1] 10 3 hinv (by decide)⟩

/-- Field computation for `breakEdge`: untouched tables. -/
theorem breakEdge_src_other (g : GState) (start tgt x : Nat) (hx : x ≠ tgt) :
    (breakEdge g start tgt).src x = g.src x := by
  unfold breakEdge updF
  simp [hx]

/-- Field computation for `breakEdge`: the target's new source list. -/
theorem breakEdge_src_tgt (g : GState) (start tgt : Nat) :
    (breakEdge g start tgt).src tgt =
      (g.src tgt).filter (fun b => b ≠ start) ++ [g.fresh] := by
  unfold breakEdge updF
  simp

/-- Breaking an edge only removes sources or adds the fresh breaker. -/
theorem breakEdge_src_mem (g : GState) (start tgt x b : Nat)
    (h : b ∈ (breakEdge g start tgt).src x) : b ∈ g.src x ∨ b = g.fresh := by
  by_cases hx : x = tgt
  · subst hx
    rw [breakEdge_src_tgt] at h
    rcases List.mem_append.mp h with h1 | h1
    · exact Or.inl (List.mem_of_mem_filter h1)
    · simp at h1
      exact Or.inr h1
  · rw [breakEdge_src_other g start tgt x hx] at h
    exact Or.inl h

/-- A table with a source exists (is below `n`). -/
theorem lt_n_of_src_mem (g : GState) (u b : Nat) (hInv : InvG g)
    (h : b ∈ g.src u) : u < g.n := by
  by_contra hc
  push_neg at hc
  rw [hInv.2 u hc] at h
  simp at h

/-- Breaking an edge at an existing target preserves the invariant. -/
theorem invG_breakEdge (g : GState) (start tgt : Nat) (hInv : InvG g)
    (htgt : tgt < g.n) : InvG (breakEdge g start tgt) := by
  refine ⟨?_, ?_⟩
  · show g.n ≤ g.fresh + 1
    have := hInv.1
    omega
  · intro x hx
    have hxt : x ≠ tgt := by
      intro h
      subst h
      exact absurd htgt (by simpa using hx)
    rw [breakEdge_src_other g start tgt x hxt]
    exact hInv.2 x hx

/-- A node fully processed by the DFS from `t`: no surviving edge back
to `t`, and every surviving source either visited or nonexistent/a
breaker (at or above `n`). -/
def DoneNode (t : Nat) (g : GState) (v : List Nat) (w : Nat) : Prop :=
  t ∉ g.src w ∧ ∀ b ∈ g.src w, b ∈ v ∨ g.n ≤ b

/-- All visited nodes outside the exception set are processed. -/
def DoneAll (t : Nat) (g : GState) (v : List Nat) (S : List Nat) : Prop :=
  ∀ w ∈ v, w ∉ S → DoneNode t g v w

/-- `DoneNode` is monotone in the visited set. -/
theorem doneNode_mono (t : Nat) (g : GState) (v v' : List Nat) (w : Nat)
    (hsub : ∀ x ∈ v, x ∈ v') (h : DoneNode t g v w) : DoneNode t g v' w :=
  ⟨h.1, fun b hb => (h.2 b hb).imp (hsub b) id⟩

/-- The full postcondition of one `dfsRun` call from start table `t`,
current node `u` with unprocessed snapshot suffix `rest`, entry state
`g`/`v` and active ancestor stack `S`. -/
def DfsPost (t u : Nat) (rest : List Nat) (g : GState) (v : List Nat)
    (S : List Nat) (g' : GState) (v' : List Nat) : Prop :=
  InvG g' ∧ g'.n = g.n ∧ g.fresh ≤ g'.fresh ∧
  (∀ x ∈ v, x ∈ v') ∧ (∀ s ∈ rest, s ∈ v') ∧
  (∀ x b, b ∈ g'.src x → b ∈ g.src x ∨ g.fresh ≤ b) ∧
  (∀ x ∈ v, x ≠ u → g'.src x = g.src x) ∧
  DoneAll t g' v' (u :: S) ∧ DoneNode t g' v' u

/-- The DFS of `break_cycles` satisfies its postcondition, by
induction on the fuel, following the three recursion branches: finish
the node, skip an already-visited source, expand an unvisited one. -/
theorem dfsRun_spec (t : Nat) :
    ∀ (fuel : Nat) (u : Nat) (rest : List Nat) (g : GState)
      (v S : List Nat) (g' : GState) (v' : List Nat),
      dfsRun t fuel u rest g v = some (g', v') →
      InvG g → t < g.n → t ∈ v → u ∈ v →
      rest.Nodup →
      (∀ s ∈ rest, s ∈ g.src u) →
      (t ∈ g.src u → t ∈ rest) →
      (∀ b ∈ g.src u, b ∈ rest ∨ b ∈ v ∨ g.n ≤ b) →
      DoneAll t g v (u :: S) →
      DfsPost t u rest g v S g' v' := by
  intro fuel
  induction fuel with
  | zero =>
      intro u rest g v S g' v' hrun
      simp [dfsRun] at hrun
  | succ fuel ih =>
      intro u rest g v S g' v' hrun hInv ht htv huv hnd hsub hT hAll hdone
      cases rest with
      | nil =>
          have hrun' : some (g, v) = some (g', v') := hrun
          obtain ⟨rfl, rfl⟩ : g = g' ∧ v = v' := by simpa using hrun'
          refine ⟨hInv, rfl, le_refl _, fun x hx => hx,
            fun s hs => absurd hs (List.not_mem_nil s),
            fun x b hb => Or.inl hb, fun x _ _ => rfl, hdone, ?_⟩
          refine ⟨fun hc => by simpa using hT hc, fun b hb => ?_⟩
          rcases hAll b hb with h | h | h
          · exact absurd h (List.not_mem_nil b)
          · exact Or.inl h
          · exact Or.inr h
      | cons s rest' =>
          have hrun1 :
              (if s ∈ v then
                dfsRun t fuel u rest'
                  (if s = t then breakEdge g t u else g) v
              else
                match dfsRun t fuel s
                    (snapshotSrc (if s = t then breakEdge g t u else g) s)
                    (if s = t then breakEdge g t u else g) (v.insert s) with
                | none => none
                | some (g2, v2) => dfsRun t fuel u rest' g2 v2) =
                some (g', v') := hrun
          obtain ⟨g1, hg1def⟩ :
              ∃ gg : GState, gg = if s = t then breakEdge g t u else g :=
            ⟨_, rfl⟩
          rw [← hg1def] at hrun1
          have hsrcU : s ∈ g.src u := hsub s (List.mem_cons_self s rest')
          have hULt : u < g.n := lt_n_of_src_mem g u s hInv hsrcU
          have hsrest : s ∉ rest' := (List.nodup_cons.mp hnd).1
          have hndr : rest'.Nodup := (List.nodup_cons.mp hnd).2
          have hfreshN : g.n ≤ g.fresh := hInv.1
          have hg1Inv : InvG g1 := by
            rw [hg1def]
            by_cases hst : s = t
            · rw [if_pos hst]
              exact invG_breakEdge g t u hInv hULt
            · rw [if_neg hst]
              exact hInv
          have hg1n : g1.n = g.n := by
            rw [hg1def]
            by_cases hst : s = t
            · rw [if_pos hst]
              rfl
            · rw [if_neg hst]
          have hg1fresh : g.fresh ≤ g1.fresh := by
            rw [hg1def]
            by_cases hst : s = t
            · rw [if_pos hst]
              show g.fresh ≤ g.fresh + 1
              exact Nat.le_succ _
            · rw [if_neg hst]
          have hg1mono : ∀ x b, b ∈ g1.src x → b ∈ g.src x ∨ g.fresh ≤ b := by
            intro x b hb
            rw [hg1def] at hb
            by_cases hst : s = t
            · rw [if_pos hst] at hb
              rcases breakEdge_src_mem g t u x b hb with h | h
              · exact Or.inl h
              · exact Or.inr (le_of_eq h.symm)
            · rw [if_neg hst] at hb
              exact Or.inl hb
          have hg1other : ∀ x, x ≠ u → g1.src x = g.src x := by
            intro x hx
            rw [hg1def]
            by_cases hst : s = t
            · rw [if_pos hst]
              exact breakEdge_src_other g t u x hx
            · rw [if_neg hst]
          have hg1sub : ∀ s' ∈ rest', s' ∈ g1.src u := by
            intro s' hs'
            have h0 : s' ∈ g.src u := hsub s' (List.mem_cons_of_mem _ hs')
            rw [hg1def]
            by_cases hst : s = t
            · rw [if_pos hst, breakEdge_src_tgt]
              refine List.mem_append_left _ (List.mem_filter.mpr ⟨h0, ?_⟩)
              have hne : s' ≠ t := fun h => hsrest (by rw [← hst] at h; exact h ▸ hs')
              simpa using hne
            · rw [if_neg hst]
              exact h0
          have hg1T : t ∈ g1.src u → t ∈ rest' := by
            intro hmem
            rw [hg1def] at hmem
            by_cases hst : s = t
            · rw [if_pos hst, breakEdge_src_tgt] at hmem
              rcases List.mem_append.mp hmem with h | h
              · have := (List.mem_filter.mp h).2
                simp at this
              · have hfr : t = g.fresh := by simpa using h
                omega
            · rw [if_neg hst] at hmem
              rcases List.mem_cons.mp (hT hmem) with h | h
              · exact absurd h.symm hst
              · exact h
          have hg1All : ∀ b ∈ g1.src u,
              b ∈ rest' ∨ b = s ∨ b ∈ v ∨ g.n ≤ b := by
            intro b hb
            rw [hg1def] at hb
            by_cases hst : s = t
            · rw [if_pos hst, breakEdge_src_tgt] at hb
              rcases List.mem_append.mp hb with h | h
              · have h1 := List.mem_filter.mp h
                rcases hAll b h1.1 with h2 | h2 | h2
                · rcases List.mem_cons.mp h2 with h3 | h3
                  · exact Or.inr (Or.inl h3)
                  · exact Or.inl h3
                · exact Or.inr (Or.inr (Or.inl h2))
                · exact Or.inr (Or.inr (Or.inr h2))
              · have hfr : b = g.fresh := by simpa using h
                exact Or.inr (Or.inr (Or.inr (by omega)))
            · rw [if_neg hst] at hb
              rcases hAll b hb with h2 | h2 | h2
              · rcases List.mem_cons.mp h2 with h3 | h3
                · exact Or.inr (Or.inl h3)
                · exact Or.inl h3
              · exact Or.inr (Or.inr (Or.inl h2))
              · exact Or.inr (Or.inr (Or.inr h2))
          have hg1done : DoneAll t g1 v (u :: S) := by
            intro w hw hwS
            have hwu : w ≠ u := fun h => hwS (h ▸ List.mem_cons_self u S)
            have h0 := hdone w hw hwS
            refine ⟨by rw [hg1other w hwu]; exact h0.1, ?_⟩
            intro b hb
            rw [hg1other w hwu] at hb
            rcases h0.2 b hb with h | h
            · exact Or.inl h
            · exact Or.inr (by rw [hg1n]; exact h)
          by_cases hsv : s ∈ v
          · rw [if_pos hsv] at hrun1
            have post := ih u rest' g1 v S g' v' hrun1 hg1Inv
              (by rw [hg1n]; exact ht) htv huv hndr hg1sub hg1T
              (fun b hb => by
                rcases hg1All b hb with h | h | h | h
                · exact Or.inl h
                · exact Or.inr (Or.inl (h ▸ hsv))
                · exact Or.inr (Or.inl h)
                · exact Or.inr (Or.inr (by rw [hg1n]; exact h)))
              hg1done
            obtain ⟨pInv, pn, pfresh, pvsub, prest, pmono, pframe, pdall,
              pdnode⟩ := post
            refine ⟨pInv, by rw [pn, hg1n], le_trans hg1fresh pfresh,
              pvsub, ?_, ?_, ?_, pdall, pdnode⟩
            · intro s0 hs0
              rcases List.mem_cons.mp hs0 with h | h
              · exact h ▸ pvsub s hsv
              · exact prest s0 h
            · intro x b hb
              rcases pmono x b hb with h | h
              · exact hg1mono x b h
              · exact Or.inr (le_trans hg1fresh h)
            · intro x hx hxu
              rw [pframe x hx hxu, hg1other x hxu]
          · rw [if_neg hsv] at hrun1
            cases hchild : dfsRun t fuel s (snapshotSrc g1 s) g1 (v.insert s) with
            | none =>
                rw [hchild] at hrun1
                exact absurd hrun1 (by simp)
            | some p =>
                obtain ⟨g2, v2⟩ := p
                rw [hchild] at hrun1
                have hins : v.insert s = s :: v := List.insert_of_not_mem hsv
                have husv : u ≠ s := fun h => hsv (h ▸ huv)
                have hpost1 := ih s (snapshotSrc g1 s) g1 (v.insert s) (u :: S)
                  g2 v2 hchild hg1Inv (by rw [hg1n]; exact ht)
                  (by rw [hins]; exact List.mem_cons_of_mem _ htv)
                  (by rw [hins]; exact List.mem_cons_self s v)
                  (List.nodup_dedup _)
                  (fun b hb => List.mem_dedup.mp hb)
                  (fun hmem => List.mem_dedup.mpr hmem)
                  (fun b hb => Or.inl (List.mem_dedup.mpr hb))
                  (by
                    intro w hw hwS
                    rw [hins] at hw
                    have hws : w ≠ s := fun h => hwS (h ▸ List.mem_cons_self s _)
                    have hwv : w ∈ v := by
                      rcases List.mem_cons.mp hw with h | h
                      · exact absurd h hws
                      · exact h
                    have hwS' : w ∉ u :: S :=
                      fun h => hwS (List.mem_cons_of_mem _ h)
                    have h0 := hg1done w hwv hwS'
                    rw [hins]
                    exact doneNode_mono t g1 v (s :: v) w
                      (fun x hx => List.mem_cons_of_mem _ hx) h0)
                obtain ⟨qInv, qn, qfresh, qvsub, qsnap, qmono, qframe, qdall,
                  qdnode⟩ := hpost1
                have hq_u : g2.src u = g1.src u :=
                  qframe u (by rw [hins]; exact List.mem_cons_of_mem _ huv) husv
                have hDall2 : DoneAll t g2 v2 (u :: S) := by
                  intro w hw hwS
                  by_cases hws : w = s
                  · exact hws ▸ qdnode
                  · refine qdall w hw ?_
                    intro hc
                    rcases List.mem_cons.mp hc with h | h
                    · exact hws h
                    · exact hwS h
                have hsv2 : s ∈ v2 :=
                  qvsub s (by rw [hins]; exact List.mem_cons_self s v)
                have hvsub2 : ∀ x ∈ v, x ∈ v2 :=
                  fun x hx => qvsub x (by rw [hins]; exact List.mem_cons_of_mem _ hx)
                have hpost2 := ih u rest' g2 v2 S g' v' hrun1 qInv
                  (by rw [qn, hg1n]; exact ht)
                  (hvsub2 t htv) (hvsub2 u huv) hndr
                  (by rw [hq_u]; exact hg1sub)
                  (by rw [hq_u]; exact hg1T)
                  (by
                    rw [hq_u]
                    intro b hb
                    rcases hg1All b hb with h | h | h | h
                    · exact Or.inl h
                    · exact Or.inr (Or.inl (h ▸ hsv2))
                    · exact Or.inr (Or.inl (hvsub2 b h))
                    · exact Or.inr (Or.inr (by rw [qn, hg1n]; exact h)))
                  hDall2
                obtain ⟨rInv, rn, rfresh, rvsub, rrest, rmono, rframe, rdall,
                  rdnode⟩ := hpost2
                refine ⟨rInv, by rw [rn, qn, hg1n],
                  le_trans hg1fresh (le_trans qfresh rfresh),
                  fun x hx => rvsub x (hvsub2 x hx), ?_, ?_, ?_, rdall, rdnode⟩
                · intro s0 hs0
                  rcases List.mem_cons.mp hs0 with h | h
                  · exact h ▸ rvsub s hsv2
                  · exact rrest s0 h
                · intro x b hb
                  rcases rmono x b hb with h | h
                  · rcases qmono x b h with h1 | h1
                    · rcases hg1mono x b h1 with h2 | h2
                      · exact Or.inl h2
                      · exact Or.inr h2
                    · exact Or.inr (le_trans hg1fresh h1)
                  · exact Or.inr (le_trans hg1fresh (le_trans qfresh h))
                · intro x hx hxu
                  have hxs : x ≠ s := fun h => hsv (h ▸ hx)
                  rw [rframe x (hvsub2 x hx) hxu,
                    qframe x (by rw [hins]; exact List.mem_cons_of_mem _ hx) hxs,
                    hg1other x hxu]

/-- No table reachable from `t` keeps an edge back to `t`. -/
def CleanT (g : GState) (t : Nat) : Prop :=
  ∀ X, Relation.ReflTransGen (StepRel g) t X → t ∉ g.src X

/-- Once every visited node is processed, reachability from a visited
start stays within the visited set or the sourceless ids at or above
`n`. -/
theorem reach_visited (t : Nat) (g : GState) (v : List Nat)
    (hInv : InvG g)
    (hd : ∀ w ∈ v, DoneNode t g v w) (htv : t ∈ v) :
    ∀ X, Relation.ReflTransGen (StepRel g) t X → X ∈ v ∨ g.n ≤ X := by
  intro X hreach
  induction hreach with
  | refl => exact Or.inl htv
  | @tail b c hab hbc ih =>
      rcases ih with h | h
      · exact (hd b h).2 c hbc
      · have hempty : g.src b = [] := hInv.2 b h
        unfold StepRel at hbc
        rw [hempty] at hbc
        simp at hbc

/-- A completed DFS run from `t` leaves the graph invariant intact,
only removes edges or adds fresh breakers, and leaves `t` clean. -/
theorem dfsStart_clean (fuel t : Nat) (g g' : GState) (v' : List Nat)
    (hrun : dfsStart fuel t g = some (g', v'))
    (hInv : InvG g) (ht : t < g.n) :
    InvG g' ∧ g'.n = g.n ∧ g.fresh ≤ g'.fresh ∧
    (∀ x b, b ∈ g'.src x → b ∈ g.src x ∨ g.fresh ≤ b) ∧
    CleanT g' t := by
  have hspec := dfsRun_spec t fuel t (snapshotSrc g t) g [t] [] g' v' hrun hInv
    ht (List.mem_cons_self t []) (List.mem_cons_self t [])
    (List.nodup_dedup _)
    (fun b hb => List.mem_dedup.mp hb)
    (fun hmem => List.mem_dedup.mpr hmem)
    (fun b hb => Or.inl (List.mem_dedup.mpr hb))
    (by
      intro w hw hwS
      rcases List.mem_cons.mp hw with h | h
      · exact absurd (h ▸ List.mem_cons_self t []) hwS
      · exact absurd h (List.not_mem_nil w))
  obtain ⟨pInv, pn, pfresh, pvsub, _, pmono, _, pdall, pdnode⟩ := hspec
  have hdAll : ∀ w ∈ v', DoneNode t g' v' w := by
    intro w hw
    by_cases hwt : w = t
    · exact hwt ▸ pdnode
    · exact pdall w hw (by simp [hwt])
  have htv' : t ∈ v' := pvsub t (List.mem_cons_self t [])
  refine ⟨pInv, pn, pfresh, pmono, ?_⟩
  intro X hreach hmem
  rcases reach_visited t g' v' pInv hdAll htv' X hreach with h | h
  · exact (hdAll X h).1 hmem
  · rw [pInv.2 X h] at hmem
    simp at hmem

/-- Cleanness survives later graph rewrites that only remove edges or
add sourceless fresh breakers. -/
theorem cleanT_mono (g g' : GState) (t : Nat)
    (hn : g'.n = g.n) (hInv : InvG g) (hInv' : InvG g')
    (hmono : ∀ x b, b ∈ g'.src x → b ∈ g.src x ∨ g.fresh ≤ b)
    (ht : t < g.n) (hclean : CleanT g t) : CleanT g' t := by
  have hfreshN : g.n ≤ g.fresh := hInv.1
  intro X hreach htX
  have htX0 : t ∈ g.src X := by
    rcases hmono X t htX with h | h
    · exact h
    · omega
  have htrans : ∀ Y, Relation.ReflTransGen (StepRel g') t Y →
      Relation.ReflTransGen (StepRel g) t Y ∨ g.fresh ≤ Y := by
    intro Y hY
    induction hY with
    | refl => exact Or.inl Relation.ReflTransGen.refl
    | @tail b c hab hbc ih =>
        rcases ih with h | h
        · rcases hmono b c hbc with h1 | h1
          · exact Or.inl (h.tail h1)
          · exact Or.inr h1
        · have hempty : g'.src b = [] := hInv'.2 b (by omega)
          unfold StepRel at hbc
          rw [hempty] at hbc
          simp at hbc
  rcases htrans X hreach with h | h
  · exact hclean X h htX0
  · have hempty : g'.src X = [] := hInv'.2 X (by omega)
    rw [hempty] at htX
    simp at htX

/-- The outer `break_cycles` loop leaves every processed start table
clean, preserving the cleanness of earlier ones. -/
theorem breakAll_spec (fuel : Nat) :
    ∀ (ts : List Nat) (g g' : GState),
      breakAll fuel ts g = some g' → InvG g → (∀ t ∈ ts, t < g.n) →
      InvG g' ∧ g'.n = g.n ∧ g.fresh ≤ g'.fresh ∧
      (∀ x b, b ∈ g'.src x → b ∈ g.src x ∨ g.fresh ≤ b) ∧
      (∀ t, t < g.n → CleanT g t → CleanT g' t) ∧
      (∀ t ∈ ts, CleanT g' t) := by
  intro ts
  induction ts with
  | nil =>
      intro g g' hrun hInv _
      obtain rfl : g = g' := by simpa [breakAll] using hrun
      exact ⟨hInv, rfl, le_refl _, fun x b hb => Or.inl hb,
        fun t _ hc => hc, fun t ht => absurd ht (List.not_mem_nil t)⟩
  | cons t0 ts' ih =>
      intro g g' hrun hInv hts
      have hrun1 :
          (match dfsStart fuel t0 g with
           | none => none
           | some (g1, _) => breakAll fuel ts' g1) = some g' := hrun
      cases hstart : dfsStart fuel t0 g with
      | none =>
          rw [hstart] at hrun1
          exact absurd hrun1 (by simp)
      | some p =>
          obtain ⟨g1, v1⟩ := p
          rw [hstart] at hrun1
          have ht0 : t0 < g.n := hts t0 (List.mem_cons_self t0 ts')
          obtain ⟨h1Inv, h1n, h1fresh, h1mono, h1clean⟩ :=
            dfsStart_clean fuel t0 g g1 v1 hstart hInv ht0
          have hts' : ∀ t ∈ ts', t < g1.n := by
            rw [h1n]
            exact fun t h => hts t (List.mem_cons_of_mem _ h)
          obtain ⟨h2Inv, h2n, h2fresh, h2mono, h2pres, h2all⟩ :=
            ih g1 g' hrun1 h1Inv hts'
          have hmono : ∀ x b, b ∈ g'.src x → b ∈ g.src x ∨ g.fresh ≤ b := by
            intro x b hb
            rcases h2mono x b hb with h | h
            · exact h1mono x b h
            · exact Or.inr (le_trans h1fresh h)
          have hpres : ∀ t, t < g.n → CleanT g t → CleanT g' t := by
            intro t htn hc
            have hc1 : CleanT g1 t :=
              cleanT_mono g g1 t h1n hInv h1Inv h1mono htn hc
            exact h2pres t (by rw [h1n]; exact htn) hc1
          refine ⟨h2Inv, by rw [h2n, h1n], le_trans h1fresh h2fresh,
            hmono, hpres, ?_⟩
          intro t htm
          rcases List.mem_cons.mp htm with h | h
          · subst h
            exact h2pres t (by rw [h1n]; exact ht0) h1clean
          · exact h2all t h

/-- C1: for every well-formed table graph, `break_cycles` — whenever
its (fueled) DFS pass completes — leaves no table reachable from
itself along the "all sources" relation: every surviving in-edge of a
start table from one of its reachable tables was broken by splicing in
a sourceless `CycleBreakerTable`. -/
theorem c1_break_cycles_acyclic (fuel : Nat) (g : GState)
    (hwf : WfInput g) : AcyclicO (breakCycles fuel g) := by
  have hInv : InvG g := ⟨le_of_eq hwf.1.symm, hwf.2⟩
  unfold breakCycles AcyclicO
  cases hrun : breakAll fuel (List.range g.n) g with
  | none => exact trivial
  | some g' =>
      obtain ⟨hInv', hn, _, _, _, hall⟩ :=
        breakAll_spec fuel (List.range g.n) g g' hrun hInv
          (fun t ht => List.mem_range.mp ht)
      show AcyclicG g'
      intro t htg
      unfold SelfReach at htg
      by_cases ht : t < g.n
      · have hclean := hall t (List.mem_range.mpr ht)
        obtain ⟨X, hreach, hstep⟩ := Relation.TransGen.tail'_iff.mp htg
        exact hclean X hreach hstep
      · obtain ⟨b, hstep, _⟩ := Relation.TransGen.head'_iff.mp htg
        have hempty : g'.src t = [] := hInv'.2 t (by omega)
        unfold StepRel at hstep
        rw [hempty] at hstep
        simp at hstep

/-- C1 witness graph: two physical tables reading each other (the
three-query circular-dependency scenario collapsed to its core). -/
def c1Example : GState :=
  ⟨2, 2, fun x => if x = 0 then [1] else if x = 1 then [0] else []⟩

/-- C1 witness: the example is well-formed, the pass completes with
fuel 20, and the result is acyclic. -/
theorem c1_break_cycles_acyclic_witness :
    WfInput c1Example ∧ (breakCycles 20 c1Example).isSome = true ∧
    AcyclicO (breakCycles 20 c1Example) := by
  have hwf : WfInput c1Example := by
    refine ⟨rfl, ?_⟩
    intro x hx
    have hx2 : 2 ≤ x := hx
    have h0 : x ≠ 0 := by omega
    have h1 : x ≠ 1 := by omega
    simp [c1Example, h0, h1]
  exact ⟨hwf, by decide, c1_break_cycles_acyclic 20 c1Example hwf⟩

end Grizzly
